import Mathlib

set_option maxHeartbeats 1000000

/- Verification development for the decision-memory repository:
   the decision parser (slugify, serialize/parse round trip), the
   protocol-server helpers (display slug, relative age) and the
   decision store (init/create/get/list/queryByFilePath/rebuildIndex). -/

-- ## Character classes

/-- Lower-case ASCII letters and digits: the class `[a-z0-9]` used by the
slugify regular expressions in `src/store/parser.ts`. -/
def lowerAlnum (c : Char) : Bool :=
  (97 ≤ c.toNat && c.toNat ≤ 122) || (48 ≤ c.toNat && c.toNat ≤ 57)

/-- JavaScript whitespace (the class `\s`, also the set trimmed by
`String.prototype.trim`). -/
def jsWs (c : Char) : Bool :=
  c == ' ' || c == '\t' || c == '\n' || c == '\r' || c == '\x0b' || c == '\x0c' ||
  c.toNat == 0xa0 || c.toNat == 0x1680 || (0x2000 ≤ c.toNat && c.toNat ≤ 0x200a) ||
  c.toNat == 0x2028 || c.toNat == 0x2029 || c.toNat == 0x202f || c.toNat == 0x205f ||
  c.toNat == 0x3000 || c.toNat == 0xfeff

-- ## slugify (src/store/parser.ts)

/-- Replacement of every maximal run of non-`[a-z0-9]` characters by a single
hyphen: the `.replace(/[^a-z0-9]+/g, "-")` step of `slugify`. The flag is true
while inside a run whose hyphen has already been emitted. -/
def collapseAux : Bool → List Char → List Char
  | _, [] => []
  | inRun, c :: cs =>
    if lowerAlnum c then c :: collapseAux false cs
    else if inRun then collapseAux true cs
    else '-' :: collapseAux true cs

def collapseRuns (l : List Char) : List Char := collapseAux false l

/-- Removal of a single leading hyphen (the regex alternative matching one
hyphen at the start of the string), and also the trailing-hyphen pass
applied to a reversed list. -/
def stripLead (l : List Char) : List Char :=
  match l with
  | [] => []
  | c :: cs => if c = '-' then cs else c :: cs

/-- Removal of a single trailing hyphen (the `-$` alternative). -/
def stripTrail (l : List Char) : List Char :=
  (stripLead l.reverse).reverse

/-- The `slugify` pipeline of `src/store/parser.ts` on a character list:
lower-case, collapse non-alphanumeric runs to single hyphens, strip one
leading and one trailing hyphen, truncate to 60 characters, strip a trailing
hyphen the truncation may expose. -/
def slugifyL (s : List Char) : List Char :=
  stripTrail ((stripTrail (stripLead (collapseRuns (s.map Char.toLower)))).take 60)

def slugify (s : String) : String := ⟨slugifyL s.data⟩

-- ## slugifyForDisplay (src/server/server.ts)

/-- The private slug derivation of the protocol server, used only to render
the destination file path in `record_decision`'s confirmation text.  It
repeats `slugify` but stops after the truncation to 60 characters: the
final trailing-hyphen strip of the parser's `slugify` is absent. -/
def slugifyForDisplay (s : String) : String :=
  ⟨(stripTrail (stripLead (collapseRuns (s.data.map Char.toLower)))).take 60⟩

-- ## getRelativeTime (src/server/server.ts)

/-- Relative-age rendering shared by `query_decisions` and `list_decisions`,
for a non-negative elapsed time in milliseconds. -/
def getRelativeTime (diffMs : Nat) : String :=
  let minutes := diffMs / 60000
  if minutes < 1 then "just now"
  else if minutes < 60 then toString minutes ++ "m ago"
  else
    let hours := minutes / 60
    if hours < 24 then toString hours ++ "h ago"
    else
      let days := hours / 24
      if days < 7 then toString days ++ "d ago"
      else
        let weeks := days / 7
        if weeks < 4 then toString weeks ++ "w ago"
        else
          let months := days / 30
          toString months ++ "mo ago"

-- ## Slug well-formedness

/-- The binary relation "not two adjacent hyphens". -/
def NotHH (a b : Char) : Prop := ¬(a = '-' ∧ b = '-')

/-- Well-formedness of a slug as claimed by the spec: only lower-case
letters, digits and single non-adjacent hyphens, no leading or trailing
hyphen, length at most 60. -/
def GoodSlug (l : List Char) : Prop :=
  (∀ c ∈ l, lowerAlnum c = true ∨ c = '-') ∧
  List.Chain' NotHH l ∧
  l.head? ≠ some '-' ∧
  l.getLast? ≠ some '-' ∧
  l.length ≤ 60

instance : DecidablePred (List.Chain' NotHH) := by
  unfold NotHH
  infer_instance

instance (l : List Char) : Decidable (GoodSlug l) := by
  unfold GoodSlug
  infer_instance

theorem collapseAux_mem (l : List Char) :
    ∀ (b : Bool) (c : Char), c ∈ collapseAux b l → lowerAlnum c = true ∨ c = '-' := by
  induction l with
  | nil => intro b c h; simp [collapseAux] at h
  | cons a t ih =>
    intro b c h
    simp only [collapseAux] at h
    by_cases ha : lowerAlnum a
    · simp [ha] at h
      rcases h with h | h
      · exact Or.inl (h ▸ ha)
      · exact ih false c h
    · simp [ha] at h
      cases b with
      | true => exact ih true c (by simpa using h)
      | false =>
        simp at h
        rcases h with h | h
        · exact Or.inr h
        · exact ih true c h

theorem collapseAux_true_head (l : List Char) :
    ∀ c, (collapseAux true l).head? = some c → lowerAlnum c = true := by
  induction l with
  | nil => intro c h; simp [collapseAux] at h
  | cons a t ih =>
    intro c h
    simp only [collapseAux] at h
    by_cases ha : lowerAlnum a
    · simp [ha] at h
      exact h ▸ ha
    · simp [ha] at h
      exact ih c h

theorem collapseAux_chain (l : List Char) :
    ∀ b, List.Chain' NotHH (collapseAux b l) := by
  induction l with
  | nil => intro b; simp [collapseAux]
  | cons a t ih =>
    intro b
    by_cases ha : lowerAlnum a
    · have hgoal : collapseAux b (a :: t) = a :: collapseAux false t := by
        simp [collapseAux, ha]
      rw [hgoal, List.chain'_cons']
      refine ⟨?_, ih false⟩
      intro y _
      intro hc
      rw [hc.1] at ha
      simp [lowerAlnum] at ha
    · cases b with
      | true =>
        have hgoal : collapseAux true (a :: t) = collapseAux true t := by
          simp [collapseAux, ha]
        rw [hgoal]
        exact ih true
      | false =>
        have hgoal : collapseAux false (a :: t) = '-' :: collapseAux true t := by
          simp [collapseAux, ha]
        rw [hgoal, List.chain'_cons']
        refine ⟨?_, ih true⟩
        intro y hy
        intro hc
        have := collapseAux_true_head t y hy
        rw [hc.2] at this
        simp [lowerAlnum] at this

theorem notHH_symm {a b : Char} (h : NotHH a b) : NotHH b a := by
  intro hc; exact h ⟨hc.2, hc.1⟩

theorem stripLead_sublist (l : List Char) : ∃ l', l = l' ++ stripLead l := by
  match l with
  | [] => exact ⟨[], rfl⟩
  | c :: cs =>
    simp only [stripLead]
    by_cases hc : c = '-'
    · exact ⟨[c], by simp [hc]⟩
    · exact ⟨[], by simp [hc]⟩

theorem stripLead_chain {l : List Char} (h : List.Chain' NotHH l) :
    List.Chain' NotHH (stripLead l) := by
  match l with
  | [] => simp [stripLead]
  | c :: cs =>
    simp only [stripLead]
    by_cases hc : c = '-'
    · simp only [hc, if_pos rfl]
      exact (List.chain'_cons'.mp h).2
    · simpa [hc] using h

theorem stripLead_mem {l : List Char} {c : Char} (h : c ∈ stripLead l) : c ∈ l := by
  obtain ⟨l', hl⟩ := stripLead_sublist l
  rw [hl]
  exact List.mem_append_right l' h

theorem stripLead_head {l : List Char} (h : List.Chain' NotHH l) :
    (stripLead l).head? ≠ some '-' := by
  match l with
  | [] => simp [stripLead]
  | c :: cs =>
    simp only [stripLead]
    by_cases hc : c = '-'
    · simp only [hc, if_pos rfl]
      intro hh
      match cs, hh with
      | d :: cs', hh =>
        simp at hh
        have := (List.chain'_cons'.mp h).1 d (by simp)
        rw [hc, hh] at this
        exact this ⟨rfl, rfl⟩
    · have hgoal : (if c = '-' then cs else c :: cs) = c :: cs := by simp [hc]
      rw [hgoal]
      simpa using hc

theorem chain_reverse_self {l : List Char} (h : List.Chain' NotHH l) :
    List.Chain' NotHH l.reverse := by
  rw [List.chain'_reverse]
  exact h.imp (fun a b hab => notHH_symm hab)

theorem stripTrail_chain {l : List Char} (h : List.Chain' NotHH l) :
    List.Chain' NotHH (stripTrail l) :=
  chain_reverse_self (stripLead_chain (chain_reverse_self h))

theorem stripTrail_mem {l : List Char} {c : Char} (h : c ∈ stripTrail l) : c ∈ l := by
  unfold stripTrail at h
  rw [List.mem_reverse] at h
  have := stripLead_mem h
  rwa [List.mem_reverse] at this

theorem stripTrail_getLast {l : List Char} (h : List.Chain' NotHH l) :
    (stripTrail l).getLast? ≠ some '-' := by
  unfold stripTrail
  rw [List.getLast?_reverse]
  exact stripLead_head (chain_reverse_self h)

theorem stripTrail_head {l : List Char} (h : l.head? ≠ some '-') :
    (stripTrail l).head? ≠ some '-' := by
  unfold stripTrail
  rw [List.head?_reverse]
  intro hc
  obtain ⟨l', hl⟩ := stripLead_sublist l.reverse
  have hne : stripLead l.reverse ≠ [] := by
    intro h0; rw [h0] at hc; simp at hc
  have hlast : (l' ++ stripLead l.reverse).getLast? = (stripLead l.reverse).getLast? :=
    List.getLast?_append_of_ne_nil l' hne
  rw [← hl] at hlast
  rw [List.getLast?_reverse] at hlast
  exact h (hlast.trans hc)

theorem stripLead_length (l : List Char) : (stripLead l).length ≤ l.length := by
  match l with
  | [] => simp [stripLead]
  | c :: cs =>
    simp only [stripLead]
    by_cases hc : c = '-' <;> simp [hc]

theorem stripTrail_length (l : List Char) : (stripTrail l).length ≤ l.length := by
  unfold stripTrail
  rw [List.length_reverse]
  calc (stripLead l.reverse).length ≤ l.reverse.length := stripLead_length _
  _ = l.length := List.length_reverse _

theorem take60_head {l : List Char} (h : l.head? ≠ some '-') :
    (l.take 60).head? ≠ some '-' := by
  match l with
  | [] => simp
  | c :: cs => simpa using h

-- ## Claim C4

/-- C4: for every input string, `slugify` yields only lower-case letters,
digits and single non-adjacent hyphens, with no leading or trailing hyphen
and length at most 60; `slugify "PostgreSQL" = "postgresql"`,
`slugify "foo   ---   bar" = "foo-bar"`, and a summary without alphanumeric
characters yields the empty string. -/
theorem slugify_wellFormed :
    (∀ s : String, GoodSlug (slugify s).data) ∧
    slugify "PostgreSQL" = "postgresql" ∧
    slugify "foo   ---   bar" = "foo-bar" ∧
    slugify "!@#$%^&*()" = "" ∧
    (∀ s : String, (∀ c ∈ s.data, lowerAlnum (Char.toLower c) = false) →
      slugify s = "") := by
  refine ⟨?_, by decide, by decide, by decide, ?_⟩
  · intro s
    show GoodSlug (slugifyL s.data)
    unfold slugifyL
    have hchain0 : List.Chain' NotHH (collapseRuns (s.data.map Char.toLower)) :=
      collapseAux_chain _ false
    have hchain1 := stripLead_chain hchain0
    have hchain2 := stripTrail_chain hchain1
    have hchain3 := hchain2.take 60
    have hhead1 := stripLead_head hchain0
    have hhead2 := stripTrail_head hhead1
    have hhead3 := take60_head hhead2
    refine ⟨?_, stripTrail_chain hchain3, stripTrail_head hhead3,
      stripTrail_getLast hchain3, ?_⟩
    · intro c hc
      have hc1 := stripTrail_mem hc
      have hc2 := List.take_subset 60 _ hc1
      have hc3 := stripTrail_mem hc2
      have hc4 := stripLead_mem hc3
      exact collapseAux_mem _ false c hc4
    · calc (stripTrail ((stripTrail (stripLead
            (collapseRuns (s.data.map Char.toLower)))).take 60)).length
          ≤ ((stripTrail (stripLead
            (collapseRuns (s.data.map Char.toLower)))).take 60).length :=
            stripTrail_length _
      _ ≤ 60 := List.length_take_le 60 _
  · intro s h
    show (⟨slugifyL s.data⟩ : String) = ""
    have hnil : slugifyL s.data = [] := by
      unfold slugifyL collapseRuns
      have haux : ∀ l : List Char, (∀ c ∈ l, lowerAlnum c = false) →
          collapseAux true l = [] := by
        intro l
        induction l with
        | nil => intro _; simp [collapseAux]
        | cons a t ih =>
          intro hl
          have ha := hl a (by simp)
          simp only [collapseAux, ha]
          simp only [Bool.false_eq_true, if_false, if_true]
          exact ih (fun c hc => hl c (by simp [hc]))
      match s, h with
      | ⟨[]⟩, h => simp [collapseAux, stripLead, stripTrail]
      | ⟨c :: cs⟩, h =>
        have hc : lowerAlnum c.toLower = false := h c (by simp)
        have hcs : ∀ x ∈ cs.map Char.toLower, lowerAlnum x = false := by
          intro x hx
          obtain ⟨y, hy, hxy⟩ := List.mem_map.mp hx
          exact hxy ▸ h y (by simp [hy])
        simp only [List.map_cons, collapseAux, hc]
        simp only [Bool.false_eq_true, if_false]
        rw [haux _ hcs]
        simp [stripLead, stripTrail]
    rw [hnil]

/-- Witness for C4: a concrete well-formed slug and a concrete all-symbolic
summary mapping to the empty slug. -/
theorem slugify_wellFormed_witness :
    GoodSlug (slugify "Hello,  World!").data ∧ slugify "+++" = "" :=
  ⟨slugify_wellFormed.1 "Hello,  World!",
    slugify_wellFormed.2.2.2.2 "+++" (by decide)⟩

-- ## Claim C6

/-- A 61-character summary whose slug truncates at character 60 right after a
hyphen: 59 letters `a`, one `!` (collapsed to a hyphen), then `b`. -/
def longSummary : String :=
  "aaaaaaaaaaaaaaaaaaaaaaaaaaaaaaaaaaaaaaaaaaaaaaaaaaaaaaaaaaa!b"

/-- C6: the protocol server's displayed destination path uses
`slugifyForDisplay`, which forgets the final trailing-hyphen strip of the
parser's `slugify`; on `longSummary` the confirmation text names a file
ending in `-.md` while the store writes the file without the hyphen. -/
theorem slugifyForDisplay_diverges :
    slugifyForDisplay longSummary ≠ slugify longSummary ∧
    slugify longSummary =
      "aaaaaaaaaaaaaaaaaaaaaaaaaaaaaaaaaaaaaaaaaaaaaaaaaaaaaaaaaaa" ∧
    slugifyForDisplay longSummary =
      "aaaaaaaaaaaaaaaaaaaaaaaaaaaaaaaaaaaaaaaaaaaaaaaaaaaaaaaaaaa-" := by
  refine ⟨?_, by decide, by decide⟩
  decide

-- ## Claim C7

/-- C7: the relative-age text follows the spec's floored thresholds on
minutes computed from the elapsed milliseconds. -/
theorem getRelativeTime_spec (diffMs : Nat) :
    (diffMs / 60000 < 1 → getRelativeTime diffMs = "just now") ∧
    (1 ≤ diffMs / 60000 → diffMs / 60000 < 60 →
      getRelativeTime diffMs = toString (diffMs / 60000) ++ "m ago") ∧
    (60 ≤ diffMs / 60000 → diffMs / 60000 < 1440 →
      getRelativeTime diffMs = toString (diffMs / 60000 / 60) ++ "h ago") ∧
    (1440 ≤ diffMs / 60000 → diffMs / 60000 < 10080 →
      getRelativeTime diffMs = toString (diffMs / 60000 / 60 / 24) ++ "d ago") ∧
    (10080 ≤ diffMs / 60000 → diffMs / 60000 < 40320 →
      getRelativeTime diffMs = toString (diffMs / 60000 / 60 / 24 / 7) ++ "w ago") ∧
    (40320 ≤ diffMs / 60000 →
      getRelativeTime diffMs = toString (diffMs / 60000 / 60 / 24 / 30) ++ "mo ago") := by
  refine ⟨fun h1 => ?_, fun h1 h2 => ?_, fun h1 h2 => ?_, fun h1 h2 => ?_,
    fun h1 h2 => ?_, fun h1 => ?_⟩ <;>
    simp only [getRelativeTime] <;> split_ifs <;> first | rfl | omega

/-- Witness for C7: 90000000 ms is 1500 minutes, falling in the day bucket. -/
theorem getRelativeTime_spec_witness : getRelativeTime 90000000 = "1d ago" := by
  have h := (getRelativeTime_spec 90000000).2.2.2.1 (by decide) (by decide)
  rw [h]
  decide

-- ## Data model (src/store/types.ts)

inductive DecisionStatus
  | active
  | superseded
  | archived
deriving DecidableEq, Repr

inductive DecisionSource
  | conversation
  | cli
  | hook
  | review
deriving DecidableEq, Repr

inductive DecisionConfidence
  | explicit
  | inferred
  | suggested
deriving DecidableEq, Repr

/-- The front-matter fields of a decision: every field of `Decision` except
the two body sections `context` and `consequences`. -/
structure DecisionFrontmatter where
  id : String
  summary : String
  rationale : String
  scope : List String
  tags : List String
  author : String
  source : DecisionSource
  confidence : DecisionConfidence
  status : DecisionStatus
  created : String
  updated : Option String
  supersededBy : Option String
deriving DecidableEq, Repr

/-- The central record of the system. -/
structure Decision where
  id : String
  summary : String
  rationale : String
  scope : List String
  tags : List String
  author : String
  source : DecisionSource
  confidence : DecisionConfidence
  status : DecisionStatus
  created : String
  updated : Option String
  supersededBy : Option String
  context : Option String
  consequences : Option String
deriving DecidableEq, Repr

def Decision.frontmatter (d : Decision) : DecisionFrontmatter :=
  { id := d.id, summary := d.summary, rationale := d.rationale,
    scope := d.scope, tags := d.tags, author := d.author,
    source := d.source, confidence := d.confidence, status := d.status,
    created := d.created, updated := d.updated,
    supersededBy := d.supersededBy }

/-- Modelled boundary: a markdown document as the `gray-matter` library sees
it, namely a front-matter data block plus the body text that follows it.
The library (an external dependency, assumed correct) converts between this
structured form and the raw file text. -/
structure MatterDoc where
  data : DecisionFrontmatter
  content : List Char
deriving DecidableEq, Repr

-- ## Body section extraction (the regexes of parseDecision)

/-- The characters of the heading `## Context`. -/
def headingContext : List Char :=
  ['#', '#', ' ', 'C', 'o', 'n', 't', 'e', 'x', 't']

/-- The characters of the heading `## Consequences`. -/
def headingConsequences : List Char :=
  ['#', '#', ' ', 'C', 'o', 'n', 's', 'e', 'q', 'u', 'e', 'n', 'c', 'e', 's']

/-- Test for the lookahead alternative `\n## ` that ends a lazily captured
section body. -/
def startsNlHH (l : List Char) : Bool :=
  ['\n', '#', '#', ' '].isPrefixOf l

/-- Test for the other lookahead alternative `\n*$`: only newlines remain. -/
def allNl (l : List Char) : Bool :=
  l.all (fun c => c == '\n')

/-- The lazy capture `([\s\S]*?)` bounded by the lookahead
`(?=\n## |\n*$)`: consume characters until the rest starts with `\n## ` or
consists solely of newlines (possibly none). -/
def lazyCapture : List Char → List Char
  | [] => []
  | c :: cs =>
    if startsNlHH (c :: cs) || allNl (c :: cs) then []
    else c :: lazyCapture cs

/-- The `\s*\n` piece that follows a section heading: the regex engine
matches the maximal whitespace run after the heading and backtracks to the
last newline inside it; the capture starts right after that newline.
Returns none when the whitespace run contains no newline. -/
def afterWsNl : List Char → Option (List Char)
  | [] => none
  | c :: cs =>
    if jsWs c then
      match afterWsNl cs with
      | some r => some r
      | none => if c = '\n' then some cs else none
    else none

/-- Trimming as done by JavaScript `String.prototype.trim`. -/
def strTrim (l : List Char) : List Char :=
  ((l.dropWhile jsWs).reverse.dropWhile jsWs).reverse

/-- Scan of the body for the first position where `h ++ \s*\n` matches, as
the regex `/## <name>\s*\n([\s\S]*?)(?=\n## |\n*$)/` does: at a position
where the heading matches but no newline follows within the whitespace run,
the engine moves on to the next position. On success the lazily captured,
trimmed section text is returned. -/
def findSection (h : List Char) : List Char → Option (List Char)
  | [] => none
  | c :: cs =>
    if h.isPrefixOf (c :: cs) then
      match afterWsNl ((c :: cs).drop h.length) with
      | some rest => some (strTrim (lazyCapture rest))
      | none => findSection h cs
    else findSection h cs

-- ## parseDecision and serializeDecision (src/store/parser.ts)

/-- The parser of `src/store/parser.ts`: split the document with
`gray-matter`, then extract the optional `Context` and `Consequences`
sections from the body with the two regexes; a missing heading leaves the
field unset. -/
def parseDecision (m : MatterDoc) : Decision :=
  { id := m.data.id, summary := m.data.summary,
    rationale := m.data.rationale, scope := m.data.scope,
    tags := m.data.tags, author := m.data.author,
    source := m.data.source, confidence := m.data.confidence,
    status := m.data.status, created := m.data.created,
    updated := m.data.updated, supersededBy := m.data.supersededBy,
    context := (findSection headingContext m.content).map List.asString,
    consequences :=
      (findSection headingConsequences m.content).map List.asString }

/-- The body text built by `serializeDecision` for one optional section:
nothing when the field is unset or empty (JavaScript truthiness), otherwise
a blank line, the `## <name>` heading, a blank line and the text. -/
def sectionBlock (heading : List Char) : Option String → List Char
  | none => []
  | some t =>
    if t = "" then []
    else '\n' :: (heading ++ '\n' :: '\n' :: (t.data ++ ['\n']))

/-- The serializer of `src/store/parser.ts`: the front matter carries every
field but the two body sections; the body holds a `## Context` block (only
if set) then a `## Consequences` block (only if set). -/
def serializeDecision (d : Decision) : MatterDoc :=
  { data := d.frontmatter,
    content := sectionBlock headingContext d.context ++
      sectionBlock headingConsequences d.consequences }

-- ## Round-trip infrastructure

/-- Occurrence anywhere in a text of the three characters that introduce a
second-level markdown heading. -/
def containsHH : List Char → Bool
  | [] => false
  | c :: cs => ['#', '#', ' '].isPrefixOf (c :: cs) || containsHH cs

/-- Round-trip-safe section text: nonempty, no leading or trailing
JavaScript whitespace, and no occurrence of a heading introducer. -/
def okBody (t : List Char) : Bool :=
  !t.isEmpty && !(jsWs (t.headD 'a')) && !(jsWs (t.getLastD 'a')) &&
    !(containsHH t)

/-- Round-trip safety of an optional section field. -/
def okOpt : Option String → Prop
  | none => True
  | some t => okBody t.data = true

instance : (o : Option String) → Decidable (okOpt o)
  | none => isTrue trivial
  | some t => inferInstanceAs (Decidable (okBody t.data = true))

theorem okBody_ne_nil {t : List Char} (h : okBody t = true) : t ≠ [] := by
  intro h0
  rw [h0] at h
  simp [okBody] at h

theorem okBody_head {t : List Char} (h : okBody t = true) :
    ∀ c, t.head? = some c → jsWs c = false := by
  intro c hc
  unfold okBody at h
  simp only [Bool.and_eq_true, Bool.not_eq_true'] at h
  have := h.1.1.2
  match t, hc with
  | a :: t', hc =>
    simp at hc
    rwa [← hc]

theorem okBody_last {t : List Char} (h : okBody t = true) :
    ∀ c, t.getLast? = some c → jsWs c = false := by
  intro c hc
  unfold okBody at h
  simp only [Bool.and_eq_true, Bool.not_eq_true'] at h
  have hl := h.1.2
  have : t.getLastD 'a' = c := by
    rw [List.getLastD_eq_getLast?, hc]
    rfl
  rwa [← this]

theorem okBody_hh {t : List Char} (h : okBody t = true) :
    containsHH t = false := by
  unfold okBody at h
  simp only [Bool.and_eq_true, Bool.not_eq_true'] at h
  exact h.2

theorem containsHH_decomp (pre post : List Char) :
    containsHH (pre ++ '#' :: '#' :: ' ' :: post) = true := by
  induction pre with
  | nil => simp [containsHH, List.isPrefixOf]
  | cons a p ih => simp [containsHH, ih]

theorem containsHH_drop {t : List Char} (h : containsHH t = false) (k : Nat)
    {v : List Char} (hd : t.drop k = '#' :: '#' :: ' ' :: v) : False := by
  have ht : t = t.take k ++ ('#' :: '#' :: ' ' :: v) := by
    rw [← hd, List.take_append_drop]
  rw [ht, containsHH_decomp] at h
  simp at h

theorem containsHH_cons {a : Char} {t : List Char}
    (h : containsHH (a :: t) = false) : containsHH t = false := by
  simp only [containsHH, Bool.or_eq_false_iff] at h
  exact h.2

theorem getLast?_cons_of_ne_nil {a : Char} {t : List Char} (ht : t ≠ []) :
    (a :: t).getLast? = t.getLast? := by
  match t, ht with
  | b :: t', _ => rw [List.getLast?_cons_cons]

theorem allNl_false_of_mem {c : Char} {l : List Char} (hc : c ∈ l)
    (hne : c ≠ '\n') : allNl l = false := by
  by_contra h
  simp only [Bool.not_eq_false] at h
  unfold allNl at h
  rw [List.all_eq_true] at h
  have := h c hc
  simp at this
  exact hne this

theorem isPrefixOf_hh_drop (pat : List Char) {t : List Char}
    (hcf : containsHH t = false) (k : Nat) (hk : k < t.length)
    (r : List Char) :
    (('#' :: '#' :: ' ' :: pat).isPrefixOf (t.drop k ++ '\n' :: r)) = false := by
  cases hu : t.drop k with
  | nil =>
    exfalso
    have := congrArg List.length hu
    simp at this
    omega
  | cons a u =>
    cases u with
    | nil => simp [List.isPrefixOf]
    | cons b u' =>
      cases u' with
      | nil => simp [List.isPrefixOf]
      | cons c v =>
        by_contra hp
        simp only [Bool.not_eq_false, List.cons_append,
          List.isPrefixOf, Bool.and_eq_true, beq_iff_eq] at hp
        obtain ⟨ha, hb, hc, -⟩ := hp
        exact containsHH_drop hcf k (by rw [hu, ← ha, ← hb, ← hc])

theorem lazyCapture_last :
    ∀ t : List Char, containsHH t = false →
      (∀ c, t.getLast? = some c → jsWs c = false) →
      lazyCapture (t ++ ['\n']) = t := by
  intro t
  induction t with
  | nil =>
    intro _ _
    simp [lazyCapture, startsNlHH, allNl, List.isPrefixOf]
  | cons a t' ih =>
    intro hcf hlast
    have hnl : allNl (a :: (t' ++ ['\n'])) = false := by
      obtain ⟨c, hc⟩ : ∃ c, (a :: t').getLast? = some c := by
        cases h : (a :: t').getLast? with
        | none => simp at h
        | some c => exact ⟨c, rfl⟩
      have hcw := hlast c hc
      have hcne : c ≠ '\n' := by
        intro h0; rw [h0] at hcw; simp [jsWs] at hcw
      have hcm : c ∈ a :: (t' ++ ['\n']) := by
        rw [List.getLast?_eq_getLast_of_ne_nil (l := a :: t') (by simp)] at hc
        have hmem := List.getLast_mem (l := a :: t') (by simp)
        simp only [Option.some.injEq] at hc
        rw [hc] at hmem
        rw [← List.cons_append]
        exact List.mem_append_left _ hmem
      exact allNl_false_of_mem hcm hcne
    have hhh : startsNlHH (a :: (t' ++ ['\n'])) = false := by
      by_cases han : a = '\n'
      · subst han
        cases t' with
        | nil =>
          have := hlast '\n' (by simp)
          simp [jsWs] at this
        | cons b t'' =>
          cases t'' with
          | nil => simp [startsNlHH, List.isPrefixOf]
          | cons c t3 =>
            cases t3 with
            | nil => simp [startsNlHH, List.isPrefixOf]
            | cons e t4 =>
              by_contra hp
              simp only [Bool.not_eq_false, startsNlHH, List.cons_append,
                List.isPrefixOf, Bool.and_eq_true, beq_iff_eq] at hp
              obtain ⟨-, hb, hc, he, -⟩ := hp
              have hdec : containsHH ('\n' :: b :: c :: e :: t4) = true := by
                rw [← hb, ← hc, ← he]
                exact containsHH_decomp ['\n'] t4
              rw [hdec] at hcf
              simp at hcf
      · have hne : ('\n' == a) = false := by
          simp only [beq_eq_false_iff_ne, ne_eq]
          intro h0; exact han h0.symm
        simp [startsNlHH, List.isPrefixOf, hne]
    rw [List.cons_append, lazyCapture, hhh, hnl]
    simp only [Bool.or_self, Bool.false_eq_true, if_false]
    congr 1
    apply ih (containsHH_cons hcf)
    intro c hc
    apply hlast
    cases t' with
    | nil => simp at hc
    | cons b t'' => rwa [getLast?_cons_of_ne_nil (by simp)]

theorem lazyCapture_mid :
    ∀ t : List Char, containsHH t = false →
      (∀ c, t.getLast? = some c → jsWs c = false) →
      ∀ r : List Char,
        lazyCapture (t ++ '\n' :: '\n' :: '#' :: '#' :: ' ' :: r) =
          t ++ ['\n'] := by
  intro t
  induction t with
  | nil =>
    intro _ _ r
    rw [List.nil_append, lazyCapture]
    have h1 : startsNlHH ('\n' :: '\n' :: '#' :: '#' :: ' ' :: r) = false := by
      simp [startsNlHH, List.isPrefixOf]
    have h2 : allNl ('\n' :: '\n' :: '#' :: '#' :: ' ' :: r) = false := by
      simp [allNl]
    rw [h1, h2]
    simp only [Bool.or_self, Bool.false_eq_true, if_false]
    rw [lazyCapture]
    have h3 : startsNlHH ('\n' :: '#' :: '#' :: ' ' :: r) = true := by
      simp [startsNlHH, List.isPrefixOf]
    rw [h3]
    simp
  | cons a t' ih =>
    intro hcf hlast r
    have hnl : allNl (a :: (t' ++ '\n' :: '\n' :: '#' :: '#' :: ' ' :: r)) = false := by
      apply allNl_false_of_mem (c := '#')
      · simp
      · decide
    have hhh : startsNlHH (a :: (t' ++ '\n' :: '\n' :: '#' :: '#' :: ' ' :: r)) = false := by
      by_cases han : a = '\n'
      · subst han
        cases t' with
        | nil =>
          have := hlast '\n' (by simp)
          simp [jsWs] at this
        | cons b t'' =>
          cases t'' with
          | nil => simp [startsNlHH, List.isPrefixOf]
          | cons c t3 =>
            cases t3 with
            | nil => simp [startsNlHH, List.isPrefixOf]
            | cons e t4 =>
              by_contra hp
              simp only [Bool.not_eq_false, startsNlHH, List.cons_append,
                List.isPrefixOf, Bool.and_eq_true, beq_iff_eq] at hp
              obtain ⟨-, hb, hc, he, -⟩ := hp
              have hdec : containsHH ('\n' :: b :: c :: e :: t4) = true := by
                rw [← hb, ← hc, ← he]
                exact containsHH_decomp ['\n'] t4
              rw [hdec] at hcf
              simp at hcf
      · have hne : ('\n' == a) = false := by
          simp only [beq_eq_false_iff_ne, ne_eq]
          intro h0; exact han h0.symm
        simp [startsNlHH, List.isPrefixOf, hne]
    rw [List.cons_append, lazyCapture, hhh, hnl]
    simp only [Bool.or_self, Bool.false_eq_true, if_false]
    rw [List.cons_append]
    congr 1
    apply ih (containsHH_cons hcf)
    intro c hc
    apply hlast
    cases t' with
    | nil => simp at hc
    | cons b t'' => rwa [getLast?_cons_of_ne_nil (by simp)]

theorem afterWsNl_body {u : List Char} (a : Char) (ha : jsWs a = false)
    (l : List Char) (hl : l = a :: u) :
    afterWsNl ('\n' :: '\n' :: l) = some l := by
  subst hl
  have h0 : afterWsNl (a :: u) = none := by
    rw [afterWsNl, if_neg (by simp [ha])]
  have h1 : afterWsNl ('\n' :: a :: u) = some (a :: u) := by
    rw [afterWsNl, if_pos (by decide), h0]
    simp
  rw [afterWsNl, if_pos (by decide), h1]

theorem dropWhile_eq_self_of_head {l : List Char}
    (h : ∀ c, l.head? = some c → jsWs c = false) :
    l.dropWhile jsWs = l := by
  cases l with
  | nil => rfl
  | cons a t =>
    have := h a (by simp)
    simp [List.dropWhile, this]

theorem strTrim_eq_self {t : List Char}
    (hh : ∀ c, t.head? = some c → jsWs c = false)
    (hl : ∀ c, t.getLast? = some c → jsWs c = false) :
    strTrim t = t := by
  unfold strTrim
  rw [dropWhile_eq_self_of_head hh]
  rw [dropWhile_eq_self_of_head (by
    intro c hc
    rw [List.head?_reverse] at hc
    exact hl c hc)]
  exact List.reverse_reverse t

theorem strTrim_append_nl {t : List Char} (hne : t ≠ [])
    (hh : ∀ c, t.head? = some c → jsWs c = false)
    (hl : ∀ c, t.getLast? = some c → jsWs c = false) :
    strTrim (t ++ ['\n']) = t := by
  unfold strTrim
  have h1 : (t ++ ['\n']).dropWhile jsWs = t ++ ['\n'] := by
    apply dropWhile_eq_self_of_head
    intro c hc
    match t, hne with
    | a :: t', _ =>
      simp at hc
      exact hc ▸ hh a (by simp)
  rw [h1]
  have h2 : (t ++ ['\n']).reverse = '\n' :: t.reverse := by
    simp
  rw [h2]
  have h3 : ('\n' :: t.reverse).dropWhile jsWs = t.reverse.dropWhile jsWs := by
    simp [List.dropWhile, show jsWs '\n' = true by decide]
  rw [h3]
  rw [dropWhile_eq_self_of_head (by
    intro c hc
    rw [List.head?_reverse] at hc
    exact hl c hc)]
  exact List.reverse_reverse t

theorem findSection_cons (h : List Char) (c : Char) (cs : List Char) :
    findSection h (c :: cs) =
      if h.isPrefixOf (c :: cs) then
        match afterWsNl ((c :: cs).drop h.length) with
        | some rest => some (strTrim (lazyCapture rest))
        | none => findSection h cs
      else findSection h cs := by
  rw [findSection]

theorem findSection_skip {h : List Char} {c : Char} {cs : List Char}
    (hp : (h.isPrefixOf (c :: cs)) = false) :
    findSection h (c :: cs) = findSection h cs := by
  rw [findSection_cons, if_neg (by simp [hp])]

theorem findSection_append {h : List Char} (l rest : List Char)
    (hf : ∀ k, k < l.length → (h.isPrefixOf (l.drop k ++ rest)) = false) :
    findSection h (l ++ rest) = findSection h rest := by
  induction l with
  | nil => simp
  | cons a l' ih =>
    rw [List.cons_append, findSection_skip (by
      have := hf 0 (by simp)
      simpa using this)]
    exact ih (fun k hk => by
      have := hf (k + 1) (by simpa using hk)
      simpa using this)

theorem isPrefixOf_self_append (h l : List Char) :
    (h.isPrefixOf (h ++ l)) = true := by
  induction h with
  | nil => simp [List.isPrefixOf]
  | cons c h' ih => simp [List.isPrefixOf, ih]

theorem findSection_here (h X : List Char) (c : Char) (h' : List Char)
    (hh : h = c :: h') (cap : List Char) (hws : afterWsNl X = some cap) :
    findSection h (h ++ X) = some (strTrim (lazyCapture cap)) := by
  subst hh
  rw [List.cons_append, findSection_cons]
  rw [if_pos (by
    rw [← List.cons_append]
    exact isPrefixOf_self_append (c :: h') X)]
  have hdrop : ((c :: (h' ++ X)).drop (c :: h').length) = X := by
    simp only [List.length_cons, List.drop_succ_cons]
    exact List.drop_left h' X
  rw [hdrop, hws]

theorem string_ne_empty_of_data {t : String} (h : t.data ≠ []) : t ≠ "" := by
  intro h0
  apply h
  rw [h0]

theorem sectionBlock_some {h : List Char} {t : String} (ht : t ≠ "") :
    sectionBlock h (some t) =
      '\n' :: (h ++ '\n' :: '\n' :: (t.data ++ ['\n'])) := by
  simp [sectionBlock, ht]

/-- The tail of `headingContext` after the heading introducer. -/
def ctxTail : List Char := ['C', 'o', 'n', 't', 'e', 'x', 't']

/-- The tail of `headingConsequences` after the heading introducer. -/
def consTail : List Char :=
  ['C', 'o', 'n', 's', 'e', 'q', 'u', 'e', 'n', 'c', 'e', 's']

theorem findSection_hh_none (pat : List Char) (t : List Char)
    (hcf : containsHH t = false) :
    findSection ('#' :: '#' :: ' ' :: pat) (t ++ ['\n']) = none := by
  rw [findSection_append t ['\n'] (fun k hk => by
    have := isPrefixOf_hh_drop pat hcf k hk []
    simpa using this)]
  rw [findSection_skip (by simp [List.isPrefixOf])]
  rfl

theorem findSection_ctx_start (t : String) (X : List Char)
    (hne : t.data ≠ [])
    (hhead : ∀ c, t.data.head? = some c → jsWs c = false) :
    findSection headingContext
        ('\n' :: (headingContext ++ '\n' :: '\n' :: (t.data ++ ['\n'] ++ X))) =
      some (strTrim (lazyCapture (t.data ++ ['\n'] ++ X))) := by
  rw [findSection_skip (by simp [headingContext, List.isPrefixOf])]
  obtain ⟨a, u, hu⟩ : ∃ a u, t.data = a :: u := by
    match hd : t.data, hne with
    | a :: u, _ => exact ⟨a, u, rfl⟩
  exact findSection_here headingContext _ '#' _ rfl _
    (afterWsNl_body (u := u ++ '\n' :: X) a (hhead a (by rw [hu]; rfl))
      (t.data ++ ['\n'] ++ X) (by rw [hu]; simp))

theorem findSection_cons_start (u : String) (hne : u.data ≠ [])
    (hhead : ∀ c, u.data.head? = some c → jsWs c = false) :
    findSection headingConsequences
        ('\n' :: (headingConsequences ++ '\n' :: '\n' :: (u.data ++ ['\n']))) =
      some (strTrim (lazyCapture (u.data ++ ['\n']))) := by
  rw [findSection_skip (by simp [headingConsequences, List.isPrefixOf])]
  obtain ⟨a, v, hu⟩ : ∃ a v, u.data = a :: v := by
    match hd : u.data, hne with
    | a :: v, _ => exact ⟨a, v, rfl⟩
  exact findSection_here headingConsequences _ '#' _ rfl _
    (afterWsNl_body (u := v ++ ['\n']) a (hhead a (by rw [hu]; rfl))
      (u.data ++ ['\n']) (by rw [hu]; simp))

theorem skip_ctx_block_for_cons (l : List Char) :
    ∀ k, k < ('\n' :: (headingContext ++ ['\n', '\n'])).length →
      (headingConsequences.isPrefixOf
        ((('\n' :: (headingContext ++ ['\n', '\n'])).drop k) ++ l)) = false := by
  intro k hk
  simp only [headingContext, List.length_cons, List.length_append,
    List.length_nil] at hk
  interval_cases k <;>
    simp [headingContext, headingConsequences, List.isPrefixOf]

theorem skip_cons_block_for_ctx (l : List Char) :
    ∀ k, k < ('\n' :: (headingConsequences ++ ['\n', '\n'])).length →
      (headingContext.isPrefixOf
        ((('\n' :: (headingConsequences ++ ['\n', '\n'])).drop k) ++ l)) = false := by
  intro k hk
  simp only [headingConsequences, List.length_cons, List.length_append,
    List.length_nil] at hk
  interval_cases k <;>
    simp [headingContext, headingConsequences, List.isPrefixOf]

theorem findCtx_some_none (t : String) (hok : okBody t.data = true) :
    findSection headingContext
      (sectionBlock headingContext (some t) ++
        sectionBlock headingConsequences none) = some t.data := by
  have hne := okBody_ne_nil hok
  have hhead := okBody_head hok
  have hlast := okBody_last hok
  have hcf := okBody_hh hok
  rw [sectionBlock_some (string_ne_empty_of_data hne)]
  show findSection headingContext
      ('\n' :: (headingContext ++ '\n' :: '\n' :: (t.data ++ ['\n'])) ++ []) = _
  rw [List.append_nil]
  have hmain := findSection_ctx_start t [] hne hhead
  rw [List.append_nil] at hmain
  rw [hmain, lazyCapture_last t.data hcf hlast, strTrim_eq_self hhead hlast]

theorem findCons_some_none (t : String) (hok : okBody t.data = true) :
    findSection headingConsequences
      (sectionBlock headingContext (some t) ++
        sectionBlock headingConsequences none) = none := by
  have hne := okBody_ne_nil hok
  have hcf := okBody_hh hok
  rw [sectionBlock_some (string_ne_empty_of_data hne)]
  show findSection headingConsequences
      ('\n' :: (headingContext ++ '\n' :: '\n' :: (t.data ++ ['\n'])) ++ []) = _
  rw [List.append_nil]
  have hsplit : '\n' :: (headingContext ++ '\n' :: '\n' :: (t.data ++ ['\n'])) =
      ('\n' :: (headingContext ++ ['\n', '\n'])) ++ (t.data ++ ['\n']) := by
    simp
  rw [hsplit, findSection_append _ _ (skip_ctx_block_for_cons _)]
  exact findSection_hh_none consTail t.data hcf

theorem findCtx_none_some (u : String) (hok : okBody u.data = true) :
    findSection headingContext
      (sectionBlock headingContext none ++
        sectionBlock headingConsequences (some u)) = none := by
  have hne := okBody_ne_nil hok
  have hcf := okBody_hh hok
  rw [sectionBlock_some (string_ne_empty_of_data hne)]
  show findSection headingContext
      ([] ++ '\n' :: (headingConsequences ++ '\n' :: '\n' :: (u.data ++ ['\n']))) = _
  rw [List.nil_append]
  have hsplit : '\n' :: (headingConsequences ++ '\n' :: '\n' :: (u.data ++ ['\n'])) =
      ('\n' :: (headingConsequences ++ ['\n', '\n'])) ++ (u.data ++ ['\n']) := by
    simp
  rw [hsplit, findSection_append _ _ (skip_cons_block_for_ctx _)]
  exact findSection_hh_none ctxTail u.data hcf

theorem findCons_none_some (u : String) (hok : okBody u.data = true) :
    findSection headingConsequences
      (sectionBlock headingContext none ++
        sectionBlock headingConsequences (some u)) = some u.data := by
  have hne := okBody_ne_nil hok
  have hhead := okBody_head hok
  have hlast := okBody_last hok
  have hcf := okBody_hh hok
  rw [sectionBlock_some (string_ne_empty_of_data hne)]
  show findSection headingConsequences
      ([] ++ '\n' :: (headingConsequences ++ '\n' :: '\n' :: (u.data ++ ['\n']))) = _
  rw [List.nil_append]
  rw [findSection_cons_start u hne hhead]
  rw [lazyCapture_last u.data hcf hlast, strTrim_eq_self hhead hlast]

theorem findCtx_some_some (t u : String) (hokt : okBody t.data = true)
    (hoku : okBody u.data = true) :
    findSection headingContext
      (sectionBlock headingContext (some t) ++
        sectionBlock headingConsequences (some u)) = some t.data := by
  have hnet := okBody_ne_nil hokt
  have hheadt := okBody_head hokt
  have hlastt := okBody_last hokt
  have hcft := okBody_hh hokt
  have hneu := okBody_ne_nil hoku
  rw [sectionBlock_some (string_ne_empty_of_data hnet),
    sectionBlock_some (string_ne_empty_of_data hneu)]
  have hsplit : '\n' :: (headingContext ++ '\n' :: '\n' :: (t.data ++ ['\n'])) ++
      '\n' :: (headingConsequences ++ '\n' :: '\n' :: (u.data ++ ['\n'])) =
      '\n' :: (headingContext ++ '\n' :: '\n' :: (t.data ++ ['\n'] ++
        ('\n' :: (headingConsequences ++ '\n' :: '\n' :: (u.data ++ ['\n']))))) := by
    simp
  rw [hsplit]
  rw [findSection_ctx_start t _ hnet hheadt]
  have hcap : t.data ++ ['\n'] ++
      ('\n' :: (headingConsequences ++ '\n' :: '\n' :: (u.data ++ ['\n']))) =
      t.data ++ '\n' :: '\n' :: '#' :: '#' :: ' ' ::
        (consTail ++ '\n' :: '\n' :: (u.data ++ ['\n'])) := by
    simp [headingConsequences, consTail]
  rw [hcap, lazyCapture_mid t.data hcft hlastt _,
    strTrim_append_nl hnet hheadt hlastt]

theorem findCons_some_some (t u : String) (hokt : okBody t.data = true)
    (hoku : okBody u.data = true) :
    findSection headingConsequences
      (sectionBlock headingContext (some t) ++
        sectionBlock headingConsequences (some u)) = some u.data := by
  have hnet := okBody_ne_nil hokt
  have hcft := okBody_hh hokt
  have hneu := okBody_ne_nil hoku
  have hheadu := okBody_head hoku
  have hlastu := okBody_last hoku
  have hcfu := okBody_hh hoku
  rw [sectionBlock_some (string_ne_empty_of_data hnet),
    sectionBlock_some (string_ne_empty_of_data hneu)]
  have hsplit : '\n' :: (headingContext ++ '\n' :: '\n' :: (t.data ++ ['\n'])) ++
      '\n' :: (headingConsequences ++ '\n' :: '\n' :: (u.data ++ ['\n'])) =
      ('\n' :: (headingContext ++ ['\n', '\n'])) ++
        (t.data ++ ('\n' :: '\n' ::
          (headingConsequences ++ '\n' :: '\n' :: (u.data ++ ['\n'])))) := by
    simp
  rw [hsplit, findSection_append _ _ (skip_ctx_block_for_cons _)]
  rw [findSection_append t.data _ (fun k hk => by
    have := isPrefixOf_hh_drop consTail hcft k hk
      ('\n' :: (headingConsequences ++ '\n' :: '\n' :: (u.data ++ ['\n'])))
    simpa using this)]
  rw [findSection_skip (by simp [headingConsequences, List.isPrefixOf])]
  rw [findSection_skip (by simp [headingConsequences, List.isPrefixOf])]
  obtain ⟨a, v, hu⟩ : ∃ a v, u.data = a :: v := by
    match hd : u.data, hneu with
    | a :: v, _ => exact ⟨a, v, rfl⟩
  rw [findSection_here headingConsequences _ '#' _ rfl (u.data ++ ['\n'])
    (afterWsNl_body (u := v ++ ['\n']) a (hheadu a (by rw [hu]; rfl))
      (u.data ++ ['\n']) (by rw [hu]; simp))]
  rw [lazyCapture_last u.data hcfu hlastu, strTrim_eq_self hheadu hlastu]

theorem asString_data (t : String) : List.asString t.data = t := rfl

theorem parse_serialize_roundtrip (d : Decision) (hc : okOpt d.context)
    (hk : okOpt d.consequences) :
    parseDecision (serializeDecision d) = d := by
  obtain ⟨i, sm, ra, sc, tg, au, so, cf, st, cr, up, sb, co, cq⟩ := d
  cases co with
  | none =>
    cases cq with
    | none =>
      simp [parseDecision, serializeDecision, Decision.frontmatter,
        sectionBlock, findSection]
    | some u =>
      have hoku : okBody u.data = true := hk
      simp [parseDecision, serializeDecision, Decision.frontmatter,
        findCtx_none_some u hoku, findCons_none_some u hoku, asString_data]
  | some t =>
    have hokt : okBody t.data = true := hc
    cases cq with
    | none =>
      simp [parseDecision, serializeDecision, Decision.frontmatter,
        findCtx_some_none t hokt, findCons_some_none t hokt, asString_data]
    | some u =>
      have hoku : okBody u.data = true := hk
      simp [parseDecision, serializeDecision, Decision.frontmatter,
        findCtx_some_some t u hokt hoku, findCons_some_some t u hokt hoku,
        asString_data]

-- ## Claim C1

/-- A decision whose multi-paragraph context text contains a line that
starts with a second-level heading introducer. -/
def dBad : Decision :=
  { id := "dec_20260212_bad", summary := "Heading in context",
    rationale := "Testing", scope := ["src/**/*.ts"], tags := [],
    author := "rheapatel", source := .conversation, confidence := .explicit,
    status := .active, created := "2026-02-12T09:30:00Z",
    updated := none, supersededBy := none,
    context := some "A\n\n## Note\n\nB", consequences := none }

/-- Counterexample to C1 as frozen: for the printable multi-paragraph
context text `A\n\n## Note\n\nB` the round trip truncates the context at the
embedded heading, so `parseDecision (serializeDecision d) ≠ d`. -/
theorem parseDecision_roundTrip_cex :
    parseDecision (serializeDecision dBad) ≠ dBad ∧
    (parseDecision (serializeDecision dBad)).context = some "A" := by
  decide

/-- A decision with well-behaved multi-paragraph optional sections. -/
def dSample : Decision :=
  { id := "dec_20260212_001", summary := "Use Zod for all runtime validation",
    rationale := "Type-safe, composable, works with TS inference",
    scope := ["src/**/*.ts", "api/**/*.ts"], tags := ["validation", "schema"],
    author := "rheapatel", source := .conversation, confidence := .explicit,
    status := .active, created := "2026-02-12T09:30:00Z",
    updated := none, supersededBy := none,
    context := some "Evaluated Joi, Yup, and Zod.\n\nDuring API layer implementation.",
    consequences := some "All API schemas defined with Zod." }

/-- C1 (amended): `parseDecision (serializeDecision d) = d` field-for-field,
and unset optional fields stay unset, provided each optional section text
that is set is nonempty, carries no leading or trailing whitespace, and
contains no occurrence of the heading introducer `## ` (the truncated-at-
heading counterexample forces that restriction, and trimming forces the
whitespace restriction). -/
theorem parseDecision_roundTrip (d : Decision) (hc : okOpt d.context)
    (hk : okOpt d.consequences) :
    parseDecision (serializeDecision d) = d :=
  parse_serialize_roundtrip d hc hk

/-- Witness for C1: the round trip at a concrete decision with
multi-paragraph context and consequences set. -/
theorem parseDecision_roundTrip_witness :
    parseDecision (serializeDecision dSample) = dSample :=
  parseDecision_roundTrip dSample (by decide) (by decide)

-- ## Glob matching (the minimatch boundary)

def tailsOf {α : Type} : List α → List (List α)
  | [] => [[]]
  | a :: l => (a :: l) :: tailsOf l

/-- Modelled from the spec: glob matching is delegated to the external
`minimatch` library; per the spec a `*` matches within one path segment and
matching is case-sensitive. Matching of one pattern segment against one
path segment, with `*` matching any run of characters and `?` one
character. -/
def segMatch : List Char → List Char → Bool
  | [], t => t.isEmpty
  | '*' :: ps, t => (tailsOf t).any (fun s => segMatch ps s)
  | '?' :: ps, t =>
    match t with
    | [] => false
    | _ :: ts => segMatch ps ts
  | p :: ps, t =>
    match t with
    | [] => false
    | c :: ts => p == c && segMatch ps ts

/-- Modelled from the spec: `**` matches any number of whole path segments,
every other pattern segment matches exactly one path segment. -/
def globSegs : List (List Char) → List (List Char) → Bool
  | [], t => t.isEmpty
  | p :: ps, t =>
    if p = ['*', '*'] then (tailsOf t).any (fun s => globSegs ps s)
    else
      match t with
      | [] => false
      | seg :: ts => segMatch p seg && globSegs ps ts

def splitSegsAux : List Char → List Char → List (List Char)
  | acc, [] => [acc.reverse]
  | acc, c :: cs =>
    if c = '/' then acc.reverse :: splitSegsAux [] cs
    else splitSegsAux (c :: acc) cs

/-- Split of a path or pattern into its slash-separated segments. -/
def splitSegs (l : List Char) : List (List Char) := splitSegsAux [] l

/-- Modelled from the spec: the external `minimatch(path, pattern)` call of
`DecisionStore.list`, with standard glob rules (`*` within a path segment,
`**` across segments, case-sensitive). -/
def minimatch (path pattern : String) : Bool :=
  globSegs (splitSegs pattern.data) (splitSegs path.data)

-- ## Store state (the on-disk decision tree)

/-- A stored file as the parser sees it: either a well-formed front-matter
document, or text on which the front-matter parser throws. -/
inductive FileContent
  | doc (m : MatterDoc)
  | malformed (raw : String)
deriving DecidableEq, Repr

/-- The fallible parse used by every read path: a malformed file raises. -/
def parseDecisionE : FileContent → Except String Decision
  | .doc m => .ok (parseDecision m)
  | .malformed _ => .error "parse failure"

structure StoreFile where
  name : String
  content : FileContent
deriving DecidableEq, Repr

structure DecisionIndexEntry where
  id : String
  summary : String
  scope : List String
  tags : List String
  status : DecisionStatus
  created : String
  file : String
deriving DecidableEq, Repr

structure DecisionIndex where
  version : Nat
  updated : String
  decisions : List DecisionIndexEntry
deriving DecidableEq, Repr

/-- The decision tree owned by the store: the three status subdirectories
(none when the directory does not exist) and the index file. -/
structure StoreState where
  active : Option (List StoreFile)
  superseded : Option (List StoreFile)
  archived : Option (List StoreFile)
  index : Option DecisionIndex
deriving DecidableEq, Repr

def StoreState.dir (st : StoreState) : DecisionStatus → Option (List StoreFile)
  | .active => st.active
  | .superseded => st.superseded
  | .archived => st.archived

/-- Directory listing as the store reads it: a missing directory makes
`fs.readdir` throw, which is caught and treated as an empty directory. -/
def StoreState.files (st : StoreState) (s : DecisionStatus) : List StoreFile :=
  (st.dir s).getD []

def StoreState.setDir (st : StoreState) (s : DecisionStatus)
    (files : List StoreFile) : StoreState :=
  match s with
  | .active => { st with active := some files }
  | .superseded => { st with superseded := some files }
  | .archived => { st with archived := some files }

/-- The `file.endsWith(".md")` guard of every directory scan, phrased on
the reversed character list. -/
def isMd (f : StoreFile) : Bool :=
  ['d', 'm', '.'].isPrefixOf f.name.data.reverse

def STATUS_DIRS : List DecisionStatus :=
  [.active, .superseded, .archived]

def statusDirName : DecisionStatus → String
  | .active => "active"
  | .superseded => "superseded"
  | .archived => "archived"

structure QueryOptions where
  status : Option DecisionStatus := none
  tags : Option (List String) := none
  scope : Option String := none

/-- The tag filter of `list`: applied only when a nonempty tag list is
given; keeps a decision having at least one of the wanted tags. -/
def tagFilter (tags : Option (List String)) (d : Decision) : Bool :=
  match tags with
  | none => true
  | some ts => if 0 < ts.length then ts.any (fun t => d.tags.contains t) else true

/-- The scope filter of `list`: applied only when `options.scope` is truthy
(so not for the empty string); keeps a decision when at least one of its
scope patterns matches the candidate path. -/
def scopeFilter (scope : Option String) (d : Decision) : Bool :=
  match scope with
  | none => true
  | some p => if p = "" then true else d.scope.any (fun pat => minimatch p pat)

def keepDecision (opts : QueryOptions) (d : Decision) : Bool :=
  tagFilter opts.tags d && scopeFilter opts.scope d

/-- Stable insertion for the descending sort on `created`, standing in for
the stable `Array.prototype.sort` with the `Date`-difference comparator;
ISO-8601 timestamps compare chronologically as strings. -/
def insertByCreated (d : Decision) : List Decision → List Decision
  | [] => [d]
  | e :: es =>
    if e.created < d.created then d :: e :: es else e :: insertByCreated d es

def sortByCreated : List Decision → List Decision
  | [] => []
  | d :: ds => insertByCreated d (sortByCreated ds)

def insertEntry (x : DecisionIndexEntry) :
    List DecisionIndexEntry → List DecisionIndexEntry
  | [] => [x]
  | e :: es =>
    if e.created < x.created then x :: e :: es else e :: insertEntry x es

def sortEntries : List DecisionIndexEntry → List DecisionIndexEntry
  | [] => []
  | e :: es => insertEntry e (sortEntries es)

-- ## The DecisionStore operations (src/store/store.ts, index-builder.ts)

namespace DecisionStore

/-- One directory pass of `list`: skip non-`.md` names, parse every file
(a parse failure propagates), keep the decisions passing the tag and scope
filters. -/
def scanDir (opts : QueryOptions) : List StoreFile → Except String (List Decision)
  | [] => .ok []
  | f :: rest =>
    if isMd f then
      match parseDecisionE f.content with
      | .error e => .error e
      | .ok d =>
        match scanDir opts rest with
        | .error e => .error e
        | .ok ds => .ok (if keepDecision opts d then d :: ds else ds)
    else scanDir opts rest

def scanDirs (st : StoreState) (opts : QueryOptions) :
    List DecisionStatus → Except String (List Decision)
  | [] => .ok []
  | s :: rest =>
    match scanDir opts (st.files s) with
    | .error e => .error e
    | .ok ds =>
      match scanDirs st opts rest with
      | .error e => .error e
      | .ok ds' => .ok (ds ++ ds')

/-- `DecisionStore.list`: scan the named status directory or all three,
filter, sort by `created` descending. -/
def list (st : StoreState) (opts : QueryOptions) : Except String (List Decision) :=
  match scanDirs st opts
      (match opts.status with | some s => [s] | none => STATUS_DIRS) with
  | .error e => .error e
  | .ok ds => .ok (sortByCreated ds)

/-- One directory pass of `get`: parse each `.md` file until the id
matches. -/
def getInDir (i : String) : List StoreFile → Except String (Option Decision)
  | [] => .ok none
  | f :: rest =>
    if isMd f then
      match parseDecisionE f.content with
      | .error e => .error e
      | .ok d => if d.id = i then .ok (some d) else getInDir i rest
    else getInDir i rest

/-- `DecisionStore.get`: scan the status directories in the fixed order
active, superseded, archived and return the first id match. -/
def get (st : StoreState) (i : String) : Except String (Option Decision) :=
  match getInDir i (st.files .active) with
  | .error e => .error e
  | .ok (some d) => .ok (some d)
  | .ok none =>
    match getInDir i (st.files .superseded) with
    | .error e => .error e
    | .ok (some d) => .ok (some d)
    | .ok none => getInDir i (st.files .archived)

/-- Modelled from the spec boundary: node `path.isAbsolute` on POSIX. -/
def isAbsolute (p : String) : Bool := ['/'].isPrefixOf p.data

/-- Modelled from the spec: node `path.relative(root, p)`, used purely
lexically; for a path under the root it strips the root prefix. -/
def pathRelative (root p : String) : String :=
  if (root.data ++ ['/']).isPrefixOf p.data then
    ⟨p.data.drop (root.data.length + 1)⟩
  else p

/-- `DecisionStore.queryByFilePath`: relativize an absolute path, then
delegate to `list` with `status = active` and the path as scope. -/
def queryByFilePath (st : StoreState) (root p : String) :
    Except String (List Decision) :=
  DecisionStore.list st
    { status := some .active,
      scope := some (if isAbsolute p then pathRelative root p else p) }

/-- One directory pass of the index builder. -/
def entriesOfDir (s : DecisionStatus) :
    List StoreFile → Except String (List DecisionIndexEntry)
  | [] => .ok []
  | f :: rest =>
    if isMd f then
      match parseDecisionE f.content with
      | .error e => .error e
      | .ok d =>
        match entriesOfDir s rest with
        | .error e => .error e
        | .ok es =>
          let x : DecisionIndexEntry :=
            { id := d.id, summary := d.summary, scope := d.scope,
              tags := d.tags, status := d.status, created := d.created,
              file := statusDirName s ++ "/" ++ f.name }
          .ok (x :: es)
    else entriesOfDir s rest

/-- `rebuildIndex` (src/store/index-builder.ts): scan the three status
directories in fixed order, sort the entries by `created` descending, and
overwrite the index file unconditionally. -/
def rebuildIndex (st : StoreState) (now : String) :
    Except String (DecisionIndex × StoreState) :=
  match entriesOfDir .active (st.files .active) with
  | .error e => .error e
  | .ok ea =>
    match entriesOfDir .superseded (st.files .superseded) with
    | .error e => .error e
    | .ok es =>
      match entriesOfDir .archived (st.files .archived) with
      | .error e => .error e
      | .ok er =>
        let idx : DecisionIndex :=
          { version := 1, updated := now,
            decisions := sortEntries (ea ++ es ++ er) }
        .ok (idx, { st with index := some idx })

def emptyIndex (now : String) : DecisionIndex :=
  { version := 1, updated := now, decisions := [] }

/-- `DecisionStore.init`: ensure the three status subdirectories exist and
write an empty index only when none exists. -/
def init (st : StoreState) (now : String) : StoreState :=
  { active := some (st.active.getD []),
    superseded := some (st.superseded.getD []),
    archived := some (st.archived.getD []),
    index := some (st.index.getD (emptyIndex now)) }

/-- A directory write: `fs.writeFile` replaces a file of the same name and
otherwise adds a new one. -/
def writeFile (files : List StoreFile) (f : StoreFile) : List StoreFile :=
  files.filter (fun g => !(g.name == f.name)) ++ [f]

/-- `DecisionStore.create`: ensure the status directory exists, write the
serialized decision under `slugify(summary) + ".md"`, rebuild the index,
return the input unchanged. -/
def create (st : StoreState) (d : Decision) (now : String) :
    Except String (Decision × StoreState) :=
  let st1 := st.setDir d.status (st.files d.status)
  let st2 := st1.setDir d.status
    (writeFile (st1.files d.status)
      { name := slugify d.summary ++ ".md",
        content := .doc (serializeDecision d) })
  match rebuildIndex st2 now with
  | .error e => .error e
  | .ok (_, st3) => .ok (d, st3)

end DecisionStore

-- ## Store lemmas

theorem parseDecisionE_msg {c : FileContent} {e : String}
    (h : parseDecisionE c = .error e) : e = "parse failure" := by
  cases c with
  | doc m => simp [parseDecisionE] at h
  | malformed raw =>
    simp only [parseDecisionE, Except.error.injEq] at h
    exact h.symm

theorem parseDecisionE_ok_doc {c : FileContent} {d : Decision}
    (h : parseDecisionE c = .ok d) :
    ∃ m, c = .doc m ∧ parseDecision m = d := by
  cases c with
  | doc m =>
    simp only [parseDecisionE, Except.ok.injEq] at h
    exact ⟨m, rfl, h⟩
  | malformed raw => simp [parseDecisionE] at h

theorem files_setDir_same (st : StoreState) (s : DecisionStatus)
    (files : List StoreFile) : (st.setDir s files).files s = files := by
  cases s <;> simp [StoreState.setDir, StoreState.files, StoreState.dir]

theorem files_setDir_other (st : StoreState) {s s' : DecisionStatus}
    (h : s ≠ s') (files : List StoreFile) :
    (st.setDir s files).files s' = st.files s' := by
  cases s <;> cases s' <;>
    simp_all [StoreState.setDir, StoreState.files, StoreState.dir]

theorem mem_insertByCreated {a d : Decision} {l : List Decision} :
    a ∈ insertByCreated d l ↔ a = d ∨ a ∈ l := by
  induction l with
  | nil => simp [insertByCreated]
  | cons e es ih =>
    simp only [insertByCreated]
    by_cases h : e.created < d.created
    · simp [h]
    · simp [h, ih]
      tauto

theorem mem_sortByCreated {a : Decision} {l : List Decision} :
    a ∈ sortByCreated l ↔ a ∈ l := by
  induction l with
  | nil => simp [sortByCreated]
  | cons d ds ih =>
    simp only [sortByCreated, mem_insertByCreated, ih, List.mem_cons]

theorem insertEntry_perm (x : DecisionIndexEntry) (l : List DecisionIndexEntry) :
    List.Perm (insertEntry x l) (x :: l) := by
  induction l with
  | nil => simp [insertEntry]
  | cons e es ih =>
    simp only [insertEntry]
    by_cases h : e.created < x.created
    · simp [h]
    · simp only [h, if_false]
      exact (ih.cons e).trans (List.Perm.swap x e es)

theorem sortEntries_perm (l : List DecisionIndexEntry) :
    List.Perm (sortEntries l) l := by
  induction l with
  | nil => simp [sortEntries]
  | cons e es ih =>
    exact (insertEntry_perm e (sortEntries es)).trans (ih.cons e)

-- ## Claim C8

/-- C8: `init` ensures the three status subdirectories exist, preserves an
existing index byte-for-byte, writes the empty version-1 index only when
none exists, never touches existing decision files, and is idempotent. -/
theorem init_spec (st : StoreState) (now now' : String) :
    (∀ s, ((DecisionStore.init st now).dir s).isSome = true) ∧
    (∀ i, st.index = some i → (DecisionStore.init st now).index = some i) ∧
    (st.index = none →
      (DecisionStore.init st now).index = some (DecisionStore.emptyIndex now)) ∧
    (∀ s l, st.dir s = some l → (DecisionStore.init st now).dir s = some l) ∧
    DecisionStore.init (DecisionStore.init st now) now' =
      DecisionStore.init st now := by
  refine ⟨?_, ?_, ?_, ?_, ?_⟩
  · intro s
    cases s <;> simp [DecisionStore.init, StoreState.dir]
  · intro i hi
    simp [DecisionStore.init, hi]
  · intro hi
    simp [DecisionStore.init, hi]
  · intro s l hl
    cases s <;> simp_all [DecisionStore.init, StoreState.dir]
  · simp [DecisionStore.init]

/-- A store with one existing directory and an existing index. -/
def stIdx : StoreState :=
  { active := none, superseded := some [], archived := none,
    index := some (DecisionStore.emptyIndex "2026-01-01T00:00:00Z") }

/-- Witness for C8: on a concrete store, the existing index survives `init`
and the existing directory keeps its files. -/
theorem init_spec_witness :
    (DecisionStore.init stIdx "2026-02-02T00:00:00Z").index =
      some (DecisionStore.emptyIndex "2026-01-01T00:00:00Z") ∧
    (DecisionStore.init stIdx "2026-02-02T00:00:00Z").dir .superseded =
      some [] :=
  ⟨(init_spec stIdx "2026-02-02T00:00:00Z" "x").2.1 _ rfl,
    (init_spec stIdx "2026-02-02T00:00:00Z" "x").2.2.2.1 .superseded [] rfl⟩

-- ## Claim C10

theorem getInDir_skip_wf (i : String) (l₁ l₂ : List StoreFile)
    (h : ∀ g ∈ l₁, isMd g = true →
      ∀ dd, parseDecisionE g.content = .ok dd → dd.id ≠ i)
    (hwf : ∀ g ∈ l₁, isMd g = true → ∃ m, g.content = .doc m) :
    DecisionStore.getInDir i (l₁ ++ l₂) = DecisionStore.getInDir i l₂ := by
  induction l₁ with
  | nil => simp
  | cons g l₁' ih =>
    rw [List.cons_append, DecisionStore.getInDir]
    by_cases hmd : isMd g
    · rw [if_pos hmd]
      obtain ⟨m, hm⟩ := hwf g (by simp) hmd
      have hne : (parseDecision m).id ≠ i :=
        h g (by simp) hmd (parseDecision m) (by rw [hm]; rfl)
      rw [hm]
      simpa [parseDecisionE, hne] using ih
        (fun g' hg' => h g' (by simp [hg']))
        (fun g' hg' => hwf g' (by simp [hg']))
    · rw [if_neg hmd]
      exact ih (fun g' hg' => h g' (by simp [hg']))
        (fun g' hg' => hwf g' (by simp [hg']))

theorem getInDir_found (i : String) (f : StoreFile) (l₂ : List StoreFile)
    (d : Decision) (hmd : isMd f = true)
    (hp : parseDecisionE f.content = .ok d) (hid : d.id = i) :
    DecisionStore.getInDir i (f :: l₂) = .ok (some d) := by
  rw [DecisionStore.getInDir, if_pos hmd, hp]
  simp [hid]

/-- C10: `get` scans the status directories in the fixed order active,
superseded, archived and returns the first parsed decision whose id equals
the argument; when two directories hold the same id, the directory earlier
in that order wins. -/
theorem get_scan_order (st : StoreState) (i : String) :
    (∀ l₁ f l₂ d, st.files .active = l₁ ++ f :: l₂ →
      (∀ g ∈ l₁, isMd g = true →
        ∀ dd, parseDecisionE g.content = .ok dd → dd.id ≠ i) →
      (∀ g ∈ l₁, isMd g = true → ∃ m, g.content = .doc m) →
      isMd f = true → parseDecisionE f.content = .ok d → d.id = i →
      DecisionStore.get st i = .ok (some d)) ∧
    (DecisionStore.getInDir i (st.files .active) = .ok none →
      ∀ d, DecisionStore.getInDir i (st.files .superseded) = .ok (some d) →
        DecisionStore.get st i = .ok (some d)) ∧
    (DecisionStore.getInDir i (st.files .active) = .ok none →
      DecisionStore.getInDir i (st.files .superseded) = .ok none →
        DecisionStore.get st i =
          DecisionStore.getInDir i (st.files .archived)) := by
  refine ⟨?_, ?_, ?_⟩
  · intro l₁ f l₂ d hsplit hpre hwf hmd hp hid
    have ha : DecisionStore.getInDir i (st.files .active) = .ok (some d) := by
      rw [hsplit, getInDir_skip_wf i l₁ (f :: l₂) hpre hwf,
        getInDir_found i f l₂ d hmd hp hid]
    rw [DecisionStore.get, ha]
  · intro h1 d h2
    rw [DecisionStore.get, h1, h2]
  · intro h1 h2
    rw [DecisionStore.get, h1, h2]

/-- An active decision and a superseded decision sharing the id
`dec_dup`. -/
def dActiveDup : Decision :=
  { id := "dec_dup", summary := "Active copy", rationale := "r",
    scope := [], tags := [], author := "a", source := .cli,
    confidence := .explicit, status := .active,
    created := "2026-02-12T09:30:00Z", updated := none,
    supersededBy := none, context := none, consequences := none }

def dSupersededDup : Decision :=
  { id := "dec_dup", summary := "Superseded copy", rationale := "r",
    scope := [], tags := [], author := "a", source := .cli,
    confidence := .explicit, status := .superseded,
    created := "2026-01-01T00:00:00Z", updated := none,
    supersededBy := none, context := none, consequences := none }

def fActiveDup : StoreFile :=
  { name := "a.md", content := .doc (serializeDecision dActiveDup) }

def fSupersededDup : StoreFile :=
  { name := "s.md", content := .doc (serializeDecision dSupersededDup) }

def stDup : StoreState :=
  { active := some [fActiveDup], superseded := some [fSupersededDup],
    archived := some [], index := none }

/-- Witness for C10: with the same id in active and superseded, `get`
returns the decision stored under active. -/
theorem get_scan_order_witness :
    DecisionStore.get stDup "dec_dup" = .ok (some dActiveDup) :=
  (get_scan_order stDup "dec_dup").1 [] fActiveDup []
    dActiveDup (by rfl) (by simp) (by simp) (by decide) (by rfl) rfl

-- ## Parse-failure propagation (claim C5)

theorem scanDir_error_msg (opts : QueryOptions) :
    ∀ (l : List StoreFile) (e : String),
      DecisionStore.scanDir opts l = .error e → e = "parse failure" := by
  intro l
  induction l with
  | nil => intro e h; simp [DecisionStore.scanDir] at h
  | cons f rest ih =>
    intro e h
    rw [DecisionStore.scanDir] at h
    by_cases hmd : isMd f
    · rw [if_pos hmd] at h
      cases hp : parseDecisionE f.content with
      | error e' =>
        rw [hp] at h
        simp at h
        rw [← h]
        exact parseDecisionE_msg hp
      | ok d =>
        rw [hp] at h
        cases hs : DecisionStore.scanDir opts rest with
        | error e' =>
          rw [hs] at h
          simp at h
          rw [← h]
          exact ih e' hs
        | ok ds =>
          rw [hs] at h
          simp at h
    · rw [if_neg hmd] at h
      exact ih e h

theorem scanDir_malformed (opts : QueryOptions) :
    ∀ (l : List StoreFile) (f : StoreFile) (raw : String), f ∈ l →
      isMd f = true → f.content = .malformed raw →
      DecisionStore.scanDir opts l = .error "parse failure" := by
  intro l
  induction l with
  | nil => intro f raw hmem; simp at hmem
  | cons g rest ih =>
    intro f raw hmem hmd hbad
    rw [DecisionStore.scanDir]
    rcases List.mem_cons.mp hmem with hg | hg
    · subst hg
      rw [if_pos hmd, hbad]
      rfl
    · by_cases hgmd : isMd g
      · rw [if_pos hgmd]
        cases hp : parseDecisionE g.content with
        | error e' => simp [parseDecisionE_msg hp]
        | ok d => simp [ih f raw hg hmd hbad]
      · rw [if_neg hgmd]
        exact ih f raw hg hmd hbad

theorem scanDirs_error_msg (st : StoreState) (opts : QueryOptions) :
    ∀ (dirs : List DecisionStatus) (e : String),
      DecisionStore.scanDirs st opts dirs = .error e → e = "parse failure" := by
  intro dirs
  induction dirs with
  | nil => intro e h; simp [DecisionStore.scanDirs] at h
  | cons t rest ih =>
    intro e h
    rw [DecisionStore.scanDirs] at h
    cases ht : DecisionStore.scanDir opts (st.files t) with
    | error e' =>
      rw [ht] at h
      simp at h
      rw [← h]
      exact scanDir_error_msg opts _ e' ht
    | ok ds =>
      rw [ht] at h
      cases hs : DecisionStore.scanDirs st opts rest with
      | error e' =>
        rw [hs] at h
        simp at h
        rw [← h]
        exact ih e' hs
      | ok ds' =>
        rw [hs] at h
        simp at h

theorem scanDirs_malformed (st : StoreState) (opts : QueryOptions)
    (s : DecisionStatus)
    (hs : DecisionStore.scanDir opts (st.files s) = .error "parse failure") :
    ∀ dirs : List DecisionStatus, s ∈ dirs →
      DecisionStore.scanDirs st opts dirs = .error "parse failure" := by
  intro dirs
  induction dirs with
  | nil => intro h; simp at h
  | cons t rest ih =>
    intro hmem
    rw [DecisionStore.scanDirs]
    rcases List.mem_cons.mp hmem with ht | ht
    · subst ht
      rw [hs]
    · cases h : DecisionStore.scanDir opts (st.files t) with
      | error e' => simp [scanDir_error_msg opts _ e' h]
      | ok ds => simp [ih ht]

theorem entriesOfDir_error_msg (s : DecisionStatus) :
    ∀ (l : List StoreFile) (e : String),
      DecisionStore.entriesOfDir s l = .error e → e = "parse failure" := by
  intro l
  induction l with
  | nil => intro e h; simp [DecisionStore.entriesOfDir] at h
  | cons f rest ih =>
    intro e h
    rw [DecisionStore.entriesOfDir] at h
    by_cases hmd : isMd f
    · rw [if_pos hmd] at h
      cases hp : parseDecisionE f.content with
      | error e' =>
        rw [hp] at h
        simp at h
        rw [← h]
        exact parseDecisionE_msg hp
      | ok d =>
        rw [hp] at h
        cases hs : DecisionStore.entriesOfDir s rest with
        | error e' =>
          rw [hs] at h
          simp at h
          rw [← h]
          exact ih e' hs
        | ok es =>
          rw [hs] at h
          simp at h
    · rw [if_neg hmd] at h
      exact ih e h

theorem entriesOfDir_malformed (s : DecisionStatus) :
    ∀ (l : List StoreFile) (f : StoreFile) (raw : String), f ∈ l →
      isMd f = true → f.content = .malformed raw →
      DecisionStore.entriesOfDir s l = .error "parse failure" := by
  intro l
  induction l with
  | nil => intro f raw hmem; simp at hmem
  | cons g rest ih =>
    intro f raw hmem hmd hbad
    rw [DecisionStore.entriesOfDir]
    rcases List.mem_cons.mp hmem with hg | hg
    · subst hg
      rw [if_pos hmd, hbad]
      rfl
    · by_cases hgmd : isMd g
      · rw [if_pos hgmd]
        cases hp : parseDecisionE g.content with
        | error e' => simp [parseDecisionE_msg hp]
        | ok d => simp [ih f raw hg hmd hbad]
      · rw [if_neg hgmd]
        exact ih f raw hg hmd hbad

theorem rebuildIndex_malformed (st : StoreState) (s : DecisionStatus)
    (f : StoreFile) (raw : String) (hmem : f ∈ st.files s)
    (hmd : isMd f = true) (hbad : f.content = .malformed raw) (now : String) :
    DecisionStore.rebuildIndex st now = .error "parse failure" := by
  rw [DecisionStore.rebuildIndex]
  cases s with
  | active =>
    rw [entriesOfDir_malformed .active _ f raw hmem hmd hbad]
  | superseded =>
    cases ha : DecisionStore.entriesOfDir .active (st.files .active) with
    | error e => simp [entriesOfDir_error_msg .active _ e ha]
    | ok ea =>
      simp only []
      rw [entriesOfDir_malformed .superseded _ f raw hmem hmd hbad]
  | archived =>
    cases ha : DecisionStore.entriesOfDir .active (st.files .active) with
    | error e => simp [entriesOfDir_error_msg .active _ e ha]
    | ok ea =>
      cases hsu : DecisionStore.entriesOfDir .superseded (st.files .superseded) with
      | error e => simp [entriesOfDir_error_msg .superseded _ e hsu]
      | ok es =>
        simp only []
        rw [entriesOfDir_malformed .archived _ f raw hmem hmd hbad]

theorem getInDir_malformed (i : String) (f : StoreFile) (raw : String)
    (hmd : isMd f = true) (hbad : f.content = .malformed raw) :
    ∀ l₁ l₂ : List StoreFile,
      (∀ g ∈ l₁, isMd g = true →
        ∀ dd, parseDecisionE g.content = .ok dd → dd.id ≠ i) →
      DecisionStore.getInDir i (l₁ ++ f :: l₂) = .error "parse failure" := by
  intro l₁
  induction l₁ with
  | nil =>
    intro l₂ _
    rw [List.nil_append, DecisionStore.getInDir, if_pos hmd, hbad]
    rfl
  | cons g l₁' ih =>
    intro l₂ h
    rw [List.cons_append, DecisionStore.getInDir]
    by_cases hgmd : isMd g
    · rw [if_pos hgmd]
      cases hp : parseDecisionE g.content with
      | error e' => simp [parseDecisionE_msg hp]
      | ok dd =>
        have hne := h g (by simp) hgmd dd hp
        simp only [hne, if_false]
        exact ih l₂ (fun g' hg' => h g' (by simp [hg']))
    · rw [if_neg hgmd]
      exact ih l₂ (fun g' hg' => h g' (by simp [hg']))

-- ## Claim C5

/-- C5: a malformed `.md` file in a status directory makes every `list`
that scans that directory, every index rebuild, every `queryByFilePath`
(when the file sits under active), and every `get` that reaches the file
fail hard with the parse error instead of skipping the file. -/
theorem parse_failure_propagates (st : StoreState) (s : DecisionStatus)
    (f : StoreFile) (raw : String) (hmem : f ∈ st.files s)
    (hmd : isMd f = true) (hbad : f.content = .malformed raw) :
    (∀ opts : QueryOptions, opts.status = none ∨ opts.status = some s →
      DecisionStore.list st opts = .error "parse failure") ∧
    (∀ now, DecisionStore.rebuildIndex st now = .error "parse failure") ∧
    (s = .active → ∀ root p,
      DecisionStore.queryByFilePath st root p = .error "parse failure") ∧
    (s = .active → ∀ i l₁ l₂, st.files .active = l₁ ++ f :: l₂ →
      (∀ g ∈ l₁, isMd g = true →
        ∀ dd, parseDecisionE g.content = .ok dd → dd.id ≠ i) →
      DecisionStore.get st i = .error "parse failure") := by
  have hlist : ∀ opts : QueryOptions, opts.status = none ∨ opts.status = some s →
      DecisionStore.list st opts = .error "parse failure" := by
    intro opts hopt
    have hscan := scanDir_malformed opts _ f raw hmem hmd hbad
    have hdirs : DecisionStore.scanDirs st opts
        (match opts.status with | some t => [t] | none => STATUS_DIRS) =
        .error "parse failure" := by
      rcases hopt with h0 | h0
      · rw [h0]
        apply scanDirs_malformed st opts s hscan
        cases s <;> simp [STATUS_DIRS]
      · rw [h0]
        apply scanDirs_malformed st opts s hscan
        simp
    rw [DecisionStore.list, hdirs]
  refine ⟨hlist, ?_, ?_, ?_⟩
  · intro now
    exact rebuildIndex_malformed st s f raw hmem hmd hbad now
  · intro hs root p
    subst hs
    exact hlist _ (Or.inr rfl)
  · intro hs i l₁ l₂ hsplit hpre
    subst hs
    have ha : DecisionStore.getInDir i (st.files .active) =
        .error "parse failure" := by
      rw [hsplit]
      exact getInDir_malformed i f raw hmd hbad l₁ l₂ hpre
    rw [DecisionStore.get, ha]

def fBadFile : StoreFile :=
  { name := "broken.md", content := .malformed "not a decision document" }

def stBad : StoreState :=
  { active := some [fBadFile], superseded := some [], archived := some [],
    index := none }

/-- Witness for C5: with one malformed `.md` under active, the concrete
list, rebuild, query and get calls all fail hard. -/
theorem parse_failure_propagates_witness :
    DecisionStore.list stBad {} = .error "parse failure" ∧
    DecisionStore.rebuildIndex stBad "t" = .error "parse failure" ∧
    DecisionStore.queryByFilePath stBad "/r" "src/a.ts" = .error "parse failure" ∧
    DecisionStore.get stBad "dec_x" = .error "parse failure" := by
  have h := parse_failure_propagates stBad .active fBadFile
    "not a decision document" (by decide) (by decide) rfl
  exact ⟨h.1 {} (Or.inl rfl), h.2.1 "t", h.2.2.1 rfl "/r" "src/a.ts",
    h.2.2.2 rfl "dec_x" [] [] rfl (by simp)⟩

-- ## Claim C2

/-- The decisions a directory scan yields: every `.md` file parsed, in
directory order. -/
def dirDecisions (files : List StoreFile) : List Decision :=
  files.filterMap (fun f =>
    if isMd f then
      match f.content with
      | .doc m => some (parseDecision m)
      | .malformed _ => none
    else none)

theorem scanDir_ok (opts : QueryOptions) :
    ∀ files : List StoreFile,
      (∀ f ∈ files, isMd f = true → ∃ m, f.content = .doc m) →
      DecisionStore.scanDir opts files =
        .ok ((dirDecisions files).filter (keepDecision opts)) := by
  intro files
  induction files with
  | nil => intro _; simp [DecisionStore.scanDir, dirDecisions]
  | cons f rest ih =>
    intro hwf
    rw [DecisionStore.scanDir]
    by_cases hmd : isMd f
    · rw [if_pos hmd]
      obtain ⟨m, hm⟩ := hwf f (by simp) hmd
      rw [hm]
      have hrest := ih (fun g hg => hwf g (by simp [hg]))
      rw [show parseDecisionE (FileContent.doc m) = .ok (parseDecision m)
        from rfl, hrest]
      simp only [dirDecisions, List.filterMap_cons, hmd, if_pos, hm]
      by_cases hk : keepDecision opts (parseDecision m)
      · simp [hk, List.filter_cons, dirDecisions]
      · simp [hk, List.filter_cons, dirDecisions]
    · rw [if_neg hmd]
      have hrest := ih (fun g hg => hwf g (by simp [hg]))
      rw [hrest]
      simp [dirDecisions, List.filterMap_cons, hmd]

theorem mem_dirDecisions {d : Decision} {files : List StoreFile} :
    d ∈ dirDecisions files ↔
      ∃ f ∈ files, isMd f = true ∧ parseDecisionE f.content = .ok d := by
  unfold dirDecisions
  rw [List.mem_filterMap]
  constructor
  · rintro ⟨f, hf, hsome⟩
    by_cases hmd : isMd f
    · rw [if_pos hmd] at hsome
      cases hc : f.content with
      | doc m =>
        rw [hc] at hsome
        simp at hsome
        exact ⟨f, hf, hmd, by rw [hc, ← hsome]; rfl⟩
      | malformed raw =>
        rw [hc] at hsome
        simp at hsome
    · rw [if_neg hmd] at hsome
      simp at hsome
  · rintro ⟨f, hf, hmd, hp⟩
    obtain ⟨m, hm, hpd⟩ := parseDecisionE_ok_doc hp
    exact ⟨f, hf, by rw [if_pos hmd, hm]; simp [hpd]⟩

/-- C2 (amended): for a nonempty relative path `p`, `queryByFilePath`
succeeds and returns exactly the decisions stored under the active
directory having at least one scope glob matching `p` (scope entries OR'd,
standard glob rules); a decision with empty scope is never returned, and
(files lying in the directory of their status) no superseded or archived
decision is ever returned.  The empty path had to be excluded: `list`
skips the scope filter for a falsy scope string, so `queryByFilePath ""`
returns every active decision, even one with an empty scope. -/
theorem queryByFilePath_spec (st : StoreState) (root p : String)
    (hrel : DecisionStore.isAbsolute p = false) (hne : p ≠ "")
    (hwf : ∀ f ∈ st.files .active, isMd f = true → ∃ m, f.content = .doc m) :
    ∃ res, DecisionStore.queryByFilePath st root p = .ok res ∧
      (∀ d, d ∈ res ↔ ∃ f ∈ st.files .active, isMd f = true ∧
        parseDecisionE f.content = .ok d ∧
        d.scope.any (fun pat => minimatch p pat) = true) ∧
      (∀ d ∈ res, d.scope ≠ []) ∧
      ((∀ f ∈ st.files .active, ∀ dd, parseDecisionE f.content = .ok dd →
          dd.status = .active) → ∀ d ∈ res, d.status = .active) ∧
      minimatch "src/api/users.ts" "src/**/*.ts" = true ∧
      minimatch "tests/unit/foo.test.ts" "src/**/*.ts" = false := by
  have hkeep : ∀ d : Decision,
      keepDecision { status := some .active, scope := some p } d =
        d.scope.any (fun pat => minimatch p pat) := by
    intro d
    simp [keepDecision, tagFilter, scopeFilter, hne]
  have hscan := scanDir_ok { status := some .active, scope := some p }
    (st.files .active) hwf
  have hq : DecisionStore.queryByFilePath st root p =
      .ok (sortByCreated ((dirDecisions (st.files .active)).filter
        (keepDecision { status := some .active, scope := some p }))) := by
    rw [DecisionStore.queryByFilePath]
    rw [show (if DecisionStore.isAbsolute p then
      DecisionStore.pathRelative root p else p) = p from by rw [hrel]; rfl]
    rw [DecisionStore.list]
    have hdirs : DecisionStore.scanDirs st
        { status := some .active, scope := some p } [DecisionStatus.active] =
        .ok ((dirDecisions (st.files .active)).filter
          (keepDecision { status := some .active, scope := some p })) := by
      rw [DecisionStore.scanDirs, hscan]
      simp [DecisionStore.scanDirs]
    rw [show (match ({ status := some .active, scope := some p } :
        QueryOptions).status with
      | some s => [s] | none => STATUS_DIRS) = [DecisionStatus.active]
      from rfl]
    rw [hdirs]
  have hmem : ∀ d, d ∈ sortByCreated ((dirDecisions (st.files .active)).filter
      (keepDecision { status := some .active, scope := some p })) ↔
      ∃ f ∈ st.files .active, isMd f = true ∧
        parseDecisionE f.content = .ok d ∧
        d.scope.any (fun pat => minimatch p pat) = true := by
    intro d
    rw [mem_sortByCreated, List.mem_filter, mem_dirDecisions, hkeep]
    constructor
    · rintro ⟨⟨f, hf, hmd, hp⟩, hany⟩
      exact ⟨f, hf, hmd, hp, hany⟩
    · rintro ⟨f, hf, hmd, hp, hany⟩
      exact ⟨⟨f, hf, hmd, hp⟩, hany⟩
  refine ⟨_, hq, hmem, ?_, ?_, by decide, by decide⟩
  · intro d hd
    obtain ⟨f, hf, hmd, hp, hany⟩ := (hmem d).mp hd
    obtain ⟨pat, hpat, -⟩ := List.any_eq_true.mp hany
    intro h0
    rw [h0] at hpat
    simp at hpat
  · intro hstatus d hd
    obtain ⟨f, hf, hmd, hp, -⟩ := (hmem d).mp hd
    exact hstatus f hf d hp

/-- An active decision with an empty scope list. -/
def dEmptyScope : Decision :=
  { id := "dec_empty", summary := "Empty scope", rationale := "r",
    scope := [], tags := [], author := "a", source := .cli,
    confidence := .explicit, status := .active,
    created := "2026-02-12T09:30:00Z", updated := none,
    supersededBy := none, context := none, consequences := none }

def fEmptyScope : StoreFile :=
  { name := "empty-scope.md",
    content := .doc (serializeDecision dEmptyScope) }

def stEmptyScope : StoreState :=
  { active := some [fEmptyScope], superseded := some [], archived := some [],
    index := none }

/-- Counterexample to C2 as frozen: for the file path `""` the scope
filter of `list` is skipped (JavaScript truthiness), so `queryByFilePath`
returns a decision whose scope list is empty and matches no glob. -/
theorem queryByFilePath_cex :
    DecisionStore.queryByFilePath stEmptyScope "/root" "" =
      .ok [dEmptyScope] ∧ dEmptyScope.scope = [] := ⟨rfl, rfl⟩

/-- An active decision scoped to `src/**/*.ts`. -/
def dQuery : Decision :=
  { id := "dec_q", summary := "Use Zod", rationale := "validation",
    scope := ["src/**/*.ts"], tags := ["validation"], author := "a",
    source := .cli, confidence := .explicit, status := .active,
    created := "2026-02-12T09:30:00Z", updated := none,
    supersededBy := none, context := none, consequences := none }

def fQuery : StoreFile :=
  { name := "use-zod.md", content := .doc (serializeDecision dQuery) }

def stQuery : StoreState :=
  { active := some [fQuery], superseded := some [], archived := some [],
    index := none }

/-- Witness for C2: the concrete query on `src/api/users.ts` succeeds and
contains the matching decision. -/
theorem queryByFilePath_spec_witness :
    ∃ res, DecisionStore.queryByFilePath stQuery "/root" "src/api/users.ts" =
      .ok res ∧ dQuery ∈ res := by
  obtain ⟨res, hres, hmem, -⟩ :=
    queryByFilePath_spec stQuery "/root" "src/api/users.ts" (by decide)
      (by decide)
      (by
        intro f hf hmd
        have : f = fQuery := by
          simpa [stQuery, StoreState.files, StoreState.dir] using hf
        subst this
        exact ⟨serializeDecision dQuery, rfl⟩)
  refine ⟨res, hres, (hmem dQuery).mpr ⟨fQuery, by
    simp [stQuery, StoreState.files, StoreState.dir], by decide, by rfl,
    by decide⟩⟩

-- ## Claim C9

theorem scanDir_erase (opts : QueryOptions) {f : StoreFile}
    (hmd : isMd f = false) :
    ∀ l₁ l₂ : List StoreFile,
      DecisionStore.scanDir opts (l₁ ++ f :: l₂) =
        DecisionStore.scanDir opts (l₁ ++ l₂) := by
  intro l₁
  induction l₁ with
  | nil =>
    intro l₂
    rw [List.nil_append, List.nil_append, DecisionStore.scanDir, if_neg
      (by simp [hmd])]
  | cons g l₁' ih =>
    intro l₂
    rw [List.cons_append, List.cons_append, DecisionStore.scanDir,
      DecisionStore.scanDir, ih l₂]

theorem getInDir_erase (i : String) {f : StoreFile} (hmd : isMd f = false) :
    ∀ l₁ l₂ : List StoreFile,
      DecisionStore.getInDir i (l₁ ++ f :: l₂) =
        DecisionStore.getInDir i (l₁ ++ l₂) := by
  intro l₁
  induction l₁ with
  | nil =>
    intro l₂
    rw [List.nil_append, List.nil_append, DecisionStore.getInDir, if_neg
      (by simp [hmd])]
  | cons g l₁' ih =>
    intro l₂
    rw [List.cons_append, List.cons_append, DecisionStore.getInDir,
      DecisionStore.getInDir, ih l₂]

theorem entriesOfDir_erase (s : DecisionStatus) {f : StoreFile}
    (hmd : isMd f = false) :
    ∀ l₁ l₂ : List StoreFile,
      DecisionStore.entriesOfDir s (l₁ ++ f :: l₂) =
        DecisionStore.entriesOfDir s (l₁ ++ l₂) := by
  intro l₁
  induction l₁ with
  | nil =>
    intro l₂
    rw [List.nil_append, List.nil_append, DecisionStore.entriesOfDir, if_neg
      (by simp [hmd])]
  | cons g l₁' ih =>
    intro l₂
    rw [List.cons_append, List.cons_append, DecisionStore.entriesOfDir,
      DecisionStore.entriesOfDir, ih l₂]

theorem scanDirs_congr (st st' : StoreState) (opts : QueryOptions)
    (dirs : List DecisionStatus)
    (h : ∀ t ∈ dirs, DecisionStore.scanDir opts (st'.files t) =
      DecisionStore.scanDir opts (st.files t)) :
    DecisionStore.scanDirs st' opts dirs = DecisionStore.scanDirs st opts dirs := by
  induction dirs with
  | nil => rfl
  | cons t rest ih =>
    rw [DecisionStore.scanDirs, DecisionStore.scanDirs, h t (by simp),
      ih (fun t' ht' => h t' (by simp [ht']))]

/-- C9: a file whose name does not end in `.md`, with arbitrary contents,
is invisible to `list`, `get`, `queryByFilePath` and `rebuildIndex`: every
result on a store containing it equals the result on the store without it,
so the file never yields a returned decision or an index entry and never
causes a failure. -/
theorem non_md_ignored (st : StoreState) (s : DecisionStatus) (f : StoreFile)
    (hmd : isMd f = false) (l₁ l₂ : List StoreFile)
    (hsplit : st.files s = l₁ ++ f :: l₂) :
    (∀ opts, DecisionStore.list st opts =
      DecisionStore.list (st.setDir s (l₁ ++ l₂)) opts) ∧
    (∀ i, DecisionStore.get st i =
      DecisionStore.get (st.setDir s (l₁ ++ l₂)) i) ∧
    (∀ root p, DecisionStore.queryByFilePath st root p =
      DecisionStore.queryByFilePath (st.setDir s (l₁ ++ l₂)) root p) ∧
    (∀ now, (DecisionStore.rebuildIndex st now).map (fun x => x.1) =
      (DecisionStore.rebuildIndex (st.setDir s (l₁ ++ l₂)) now).map
        (fun x => x.1)) := by
  have hdir : ∀ t, (st.setDir s (l₁ ++ l₂)).files t = st.files t ∨
      ((st.setDir s (l₁ ++ l₂)).files t = l₁ ++ l₂ ∧
        st.files t = l₁ ++ f :: l₂) := by
    intro t
    by_cases ht : s = t
    · subst ht
      exact Or.inr ⟨files_setDir_same st s _, hsplit⟩
    · exact Or.inl (files_setDir_other st ht _)
  have hscan : ∀ opts t,
      DecisionStore.scanDir opts ((st.setDir s (l₁ ++ l₂)).files t) =
        DecisionStore.scanDir opts (st.files t) := by
    intro opts t
    rcases hdir t with h | ⟨h1, h2⟩
    · rw [h]
    · rw [h1, h2, scanDir_erase opts hmd l₁ l₂]
  have hlist : ∀ opts, DecisionStore.list st opts =
      DecisionStore.list (st.setDir s (l₁ ++ l₂)) opts := by
    intro opts
    rw [DecisionStore.list, DecisionStore.list,
      scanDirs_congr st (st.setDir s (l₁ ++ l₂)) opts _
        (fun t _ => hscan opts t)]
  refine ⟨hlist, ?_, ?_, ?_⟩
  · intro i
    have hget : ∀ t, DecisionStore.getInDir i
        ((st.setDir s (l₁ ++ l₂)).files t) =
        DecisionStore.getInDir i (st.files t) := by
      intro t
      rcases hdir t with h | ⟨h1, h2⟩
      · rw [h]
      · rw [h1, h2, getInDir_erase i hmd l₁ l₂]
    rw [DecisionStore.get, DecisionStore.get, hget .active, hget .superseded,
      hget .archived]
  · intro root p
    rw [DecisionStore.queryByFilePath, DecisionStore.queryByFilePath, hlist]
  · intro now
    have hent : ∀ t, DecisionStore.entriesOfDir t
        ((st.setDir s (l₁ ++ l₂)).files t) =
        DecisionStore.entriesOfDir t (st.files t) := by
      intro t
      rcases hdir t with h | ⟨h1, h2⟩
      · rw [h]
      · rw [h1, h2, entriesOfDir_erase t hmd l₁ l₂]
    rw [DecisionStore.rebuildIndex, DecisionStore.rebuildIndex, hent .active,
      hent .superseded, hent .archived]
    cases ha : DecisionStore.entriesOfDir .active (st.files .active) with
    | error e => rfl
    | ok ea =>
      cases hsu : DecisionStore.entriesOfDir .superseded
          (st.files .superseded) with
      | error e => rfl
      | ok es =>
        cases har : DecisionStore.entriesOfDir .archived
            (st.files .archived) with
        | error e => rfl
        | ok er => rfl

def fJunk : StoreFile :=
  { name := "notes.txt", content := .malformed "editor scratch file" }

def stJunk : StoreState :=
  { active := some [fJunk, fQuery], superseded := some [], archived := some [],
    index := none }

/-- Witness for C9: a concrete non-markdown junk file in active changes
neither `list` nor `get`. -/
theorem non_md_ignored_witness :
    DecisionStore.list stJunk {} =
      DecisionStore.list (stJunk.setDir .active ([] ++ [fQuery])) {} ∧
    DecisionStore.get stJunk "dec_q" =
      DecisionStore.get (stJunk.setDir .active ([] ++ [fQuery])) "dec_q" :=
  ⟨(non_md_ignored stJunk .active fJunk (by decide) [] [fQuery] (by rfl)).1 {},
    (non_md_ignored stJunk .active fJunk (by decide) [] [fQuery]
      (by rfl)).2.1 "dec_q"⟩

-- ## Claim C3 infrastructure

theorem string_data_append (a b : String) : (a ++ b).data = a.data ++ b.data :=
  rfl

theorem isMd_md (s : String) (c : FileContent) :
    isMd { name := s ++ ".md", content := c } = true := by
  show ['d', 'm', '.'].isPrefixOf ((s ++ ".md").data).reverse = true
  rw [string_data_append,
    show (".md" : String).data = ['.', 'm', 'd'] from rfl,
    List.reverse_append]
  simp [List.isPrefixOf]

/-- The index entry built from one parsed file. -/
def mkEntry (s : DecisionStatus) (f : StoreFile) (d : Decision) :
    DecisionIndexEntry :=
  { id := d.id, summary := d.summary, scope := d.scope, tags := d.tags,
    status := d.status, created := d.created,
    file := statusDirName s ++ "/" ++ f.name }

/-- The index entries a directory scan yields. -/
def dirEntries (s : DecisionStatus) (files : List StoreFile) :
    List DecisionIndexEntry :=
  files.filterMap (fun f =>
    if isMd f then
      match f.content with
      | .doc m => some (mkEntry s f (parseDecision m))
      | .malformed _ => none
    else none)

theorem entriesOfDir_ok (s : DecisionStatus) :
    ∀ files : List StoreFile,
      (∀ f ∈ files, isMd f = true → ∃ m, f.content = .doc m) →
      DecisionStore.entriesOfDir s files = .ok (dirEntries s files) := by
  intro files
  induction files with
  | nil => intro _; simp [DecisionStore.entriesOfDir, dirEntries]
  | cons f rest ih =>
    intro hwf
    rw [DecisionStore.entriesOfDir]
    by_cases hmd : isMd f
    · rw [if_pos hmd]
      obtain ⟨m, hm⟩ := hwf f (by simp) hmd
      rw [hm]
      have hrest := ih (fun g hg => hwf g (by simp [hg]))
      rw [show parseDecisionE (FileContent.doc m) = .ok (parseDecision m)
        from rfl, hrest]
      simp [dirEntries, List.filterMap_cons, hmd, hm, mkEntry]
    · rw [if_neg hmd]
      have hrest := ih (fun g hg => hwf g (by simp [hg]))
      rw [hrest]
      simp [dirEntries, List.filterMap_cons, hmd]

/-- The index `rebuildIndex` computes on a well-formed store. -/
def fullIndex (st : StoreState) (now : String) : DecisionIndex :=
  { version := 1, updated := now,
    decisions := sortEntries
      (dirEntries .active (st.files .active) ++
        dirEntries .superseded (st.files .superseded) ++
        dirEntries .archived (st.files .archived)) }

theorem rebuildIndex_ok (st : StoreState) (now : String)
    (hwf : ∀ t, ∀ f ∈ st.files t, isMd f = true → ∃ m, f.content = .doc m) :
    DecisionStore.rebuildIndex st now =
      .ok (fullIndex st now, { st with index := some (fullIndex st now) }) := by
  rw [DecisionStore.rebuildIndex, entriesOfDir_ok .active _ (hwf .active),
    entriesOfDir_ok .superseded _ (hwf .superseded),
    entriesOfDir_ok .archived _ (hwf .archived)]
  rfl

theorem dirEntries_append (s : DecisionStatus) (a b : List StoreFile) :
    dirEntries s (a ++ b) = dirEntries s a ++ dirEntries s b := by
  simp [dirEntries]

theorem dirEntries_no_id (s : DecisionStatus) (i : String) :
    ∀ files : List StoreFile,
      (∀ f ∈ files, ∀ dd, parseDecisionE f.content = .ok dd → dd.id ≠ i) →
      (dirEntries s files).filter (fun e => e.id == i) = [] := by
  intro files
  induction files with
  | nil => intro _; simp [dirEntries]
  | cons f rest ih =>
    intro h
    have hrest := ih (fun g hg => h g (by simp [hg]))
    rw [dirEntries, List.filterMap_cons]
    by_cases hmd : isMd f
    · rw [if_pos hmd]
      cases hc : f.content with
      | doc m =>
        have hne : (parseDecision m).id ≠ i :=
          h f (by simp) (parseDecision m) (by rw [hc]; rfl)
        have hbeq : ((mkEntry s f (parseDecision m)).id == i) = false := by
          simp only [mkEntry, beq_eq_false_iff_ne, ne_eq]
          exact hne
        simpa [List.filter_cons, hbeq, dirEntries] using hrest
      | malformed raw =>
        simpa [dirEntries] using hrest
    · rw [if_neg hmd]
      simpa [dirEntries] using hrest

theorem files_set_index (st : StoreState) (o : Option DecisionIndex)
    (t : DecisionStatus) :
    ({ st with index := o } : StoreState).files t = st.files t := by
  cases t <;> rfl

theorem filter_sortEntries_length (p : DecisionIndexEntry → Bool)
    (L : List DecisionIndexEntry) :
    ((sortEntries L).filter p).length = (L.filter p).length :=
  ((sortEntries_perm L).filter p).length_eq

/-- The file `create` writes. -/
def createdFile (d : Decision) : StoreFile :=
  { name := slugify d.summary ++ ".md",
    content := .doc (serializeDecision d) }

/-- The store state right after `create`'s directory write, before the
index rebuild. -/
def st2Of (st : StoreState) (d : Decision) : StoreState :=
  (st.setDir d.status (st.files d.status)).setDir d.status
    (DecisionStore.writeFile
      ((st.setDir d.status (st.files d.status)).files d.status)
      (createdFile d))

theorem create_eq (st : StoreState) (d : Decision) (now : String) :
    DecisionStore.create st d now =
      match DecisionStore.rebuildIndex (st2Of st d) now with
      | .error e => .error e
      | .ok (_, st3) => .ok (d, st3) := rfl

theorem isMd_createdFile (d : Decision) : isMd (createdFile d) = true :=
  isMd_md (slugify d.summary) _

/-- C3 (amended): for a decision `d` with active status whose id occurs in
no stored file, when every stored `.md` file parses and `d`'s optional
section texts are round-trip-safe (nonempty, trimmed, no `## ` occurrence),
`create` returns its argument unchanged together with a state in which
`get d.id` yields `d`, the file `active/(slugify d.summary).md` holds the
serialized decision, and the rebuilt index holds exactly one entry with
`d.id`.  The round-trip restriction is forced by the same counterexample as
the parser round trip; the parse-cleanly restriction is forced because
`create` rebuilds the index, which fails hard on any malformed stored
file. -/
theorem create_get_spec (st : StoreState) (d : Decision) (now : String)
    (hstatus : d.status = .active)
    (hwf : ∀ t, ∀ f ∈ st.files t, isMd f = true → ∃ m, f.content = .doc m)
    (hid : ∀ t, ∀ f ∈ st.files t, ∀ dd,
      parseDecisionE f.content = .ok dd → dd.id ≠ d.id)
    (hc : okOpt d.context) (hk : okOpt d.consequences) :
    ∃ st' : StoreState, DecisionStore.create st d now = .ok (d, st') ∧
      DecisionStore.get st' d.id = .ok (some d) ∧
      (∃ fl ∈ st'.files .active, fl.name = slugify d.summary ++ ".md" ∧
        fl.content = .doc (serializeDecision d)) ∧
      (∃ idx, st'.index = some idx ∧
        (idx.decisions.filter (fun e => e.id == d.id)).length = 1) := by
  have hroundtrip : parseDecision (serializeDecision d) = d :=
    parse_serialize_roundtrip d hc hk
  have h1files : ∀ t,
      (st.setDir d.status (st.files d.status)).files t = st.files t := by
    intro t
    by_cases ht : d.status = t
    · subst ht; exact files_setDir_same st d.status _
    · exact files_setDir_other st ht _
  have h2act : (st2Of st d).files .active =
      (st.files .active).filter
        (fun g => !(g.name == (createdFile d).name)) ++ [createdFile d] := by
    rw [st2Of, hstatus]
    rw [files_setDir_same]
    rw [DecisionStore.writeFile]
    rw [show (st.setDir DecisionStatus.active
        (st.files DecisionStatus.active)).files DecisionStatus.active =
      st.files DecisionStatus.active from by
      rw [← hstatus]; rw [hstatus]; exact files_setDir_same st _ _]
  have h2other : ∀ t, DecisionStatus.active ≠ t →
      (st2Of st d).files t = st.files t := by
    intro t ht
    rw [st2Of, hstatus]
    rw [files_setDir_other _ ht, files_setDir_other _ ht]
  have hmemflt : ∀ g, g ∈ (st.files .active).filter
      (fun g => !(g.name == (createdFile d).name)) → g ∈ st.files .active :=
    fun g hg => List.mem_of_mem_filter hg
  have hwf2 : ∀ t, ∀ f ∈ (st2Of st d).files t, isMd f = true →
      ∃ m, f.content = .doc m := by
    intro t f hf hm
    by_cases ht : DecisionStatus.active = t
    · subst ht
      rw [h2act] at hf
      rcases List.mem_append.mp hf with hf | hf
      · exact hwf .active f (hmemflt f hf) hm
      · simp at hf
        exact ⟨serializeDecision d, by rw [hf]; rfl⟩
    · rw [h2other t ht] at hf
      exact hwf t f hf hm
  have hrebuild := rebuildIndex_ok (st2Of st d) now hwf2
  refine ⟨{ st2Of st d with index := some (fullIndex (st2Of st d) now) },
    ?_, ?_, ?_, ?_⟩
  · rw [create_eq, hrebuild]
  · have ha : DecisionStore.getInDir d.id
        (({ st2Of st d with
            index := some (fullIndex (st2Of st d) now) } : StoreState).files
          .active) = .ok (some d) := by
      rw [files_set_index, h2act]
      rw [getInDir_skip_wf d.id _ _
        (fun g hg hgmd dd hp => hid .active g (hmemflt g hg) dd hp)
        (fun g hg hgmd => hwf .active g (hmemflt g hg) hgmd)]
      exact getInDir_found d.id (createdFile d) [] d (isMd_createdFile d)
        (by rw [show (createdFile d).content = .doc (serializeDecision d)
          from rfl]; simp [parseDecisionE, hroundtrip]) rfl
    rw [DecisionStore.get, ha]
  · refine ⟨createdFile d, ?_, rfl, rfl⟩
    rw [files_set_index, h2act]
    exact List.mem_append_right _ (by simp)
  · refine ⟨fullIndex (st2Of st d) now, rfl, ?_⟩
    rw [fullIndex]
    rw [filter_sortEntries_length]
    rw [List.filter_append, List.filter_append]
    rw [h2act, dirEntries_append]
    have hA0 : (dirEntries .active ((st.files .active).filter
        (fun g => !(g.name == (createdFile d).name)))).filter
        (fun e => e.id == d.id) = [] :=
      dirEntries_no_id .active d.id _
        (fun g hg dd hp => hid .active g (hmemflt g hg) dd hp)
    have hunfold : dirEntries .active [createdFile d] =
        [mkEntry .active (createdFile d) d] := by
      simp [dirEntries, isMd_createdFile, hroundtrip,
        show (createdFile d).content = FileContent.doc (serializeDecision d)
          from rfl]
    have hAnew : (dirEntries .active [createdFile d]).filter
        (fun e => e.id == d.id) =
        [mkEntry .active (createdFile d) d] := by
      rw [hunfold]
      simp [mkEntry]
    have hS0 : (dirEntries .superseded ((st2Of st d).files .superseded)).filter
        (fun e => e.id == d.id) = [] := by
      rw [h2other .superseded (by simp)]
      exact dirEntries_no_id .superseded d.id _ (hid .superseded)
    have hR0 : (dirEntries .archived ((st2Of st d).files .archived)).filter
        (fun e => e.id == d.id) = [] := by
      rw [h2other .archived (by simp)]
      exact dirEntries_no_id .archived d.id _ (hid .archived)
    rw [List.filter_append, hA0, hAnew, hS0, hR0]
    simp

deriving instance DecidableEq for Except

def stEmpty : StoreState :=
  { active := some [], superseded := some [], archived := some [],
    index := none }

/-- Counterexample to C3 as frozen: creating `dBad` (whose context text
holds an embedded heading line) in an empty store succeeds, but the stored
file reparses to a truncated context, so `get` after `create` does not
return the decision that was created. -/
theorem create_get_cex :
    dBad.status = .active ∧
    (DecisionStore.create stEmpty dBad "t0").map
        (fun x => DecisionStore.get x.2 dBad.id) ≠
      .ok (.ok (some dBad)) := by
  decide

/-- Witness for C3: creating a well-behaved decision in an empty store and
reading it back returns it unchanged. -/
theorem create_get_spec_witness :
    ∃ st', DecisionStore.create stEmpty dQuery "t0" = .ok (dQuery, st') ∧
      DecisionStore.get st' dQuery.id = .ok (some dQuery) := by
  obtain ⟨st', h1, h2, -, -⟩ := create_get_spec stEmpty dQuery "t0" rfl
    (by
      intro t f hf
      cases t <;> simp [stEmpty, StoreState.files, StoreState.dir] at hf)
    (by
      intro t f hf
      cases t <;> simp [stEmpty, StoreState.files, StoreState.dir] at hf)
    trivial trivial
  exact ⟨st', h1, h2⟩
